import Mathlib

set_option maxHeartbeats 1000000
set_option maxRecDepth 8000

/-!
A shallow embedding of the sanctuary-def run-time type system
(src/index.js), together with proofs about its central operations:
`validate`, candidate-type inference (`_determineActualTypes`),
the type-variable solver (`updateTypeVarMap` / `satisfactoryTypes`),
membership testing (`$.test`), and the curried dispatch layer.
-/

/-- JS function values are opaque to the structural recursion of the type
system.  We model them as tagged tokens; `wrapFunction` (which replaces a
function argument by a checking proxy) is modelled by the `wrapped`
constructor, so that a wrapped function is a different value from the raw
one, as in JS. -/
inductive FuncVal where
  | raw (tag : String)
  | wrapped (inner : FuncVal)
deriving DecidableEq

/-- The dynamic JS value universe the type system operates on. -/
inductive Value where
  | num (n : Int)
  | str (s : String)
  | bool (b : Bool)
  | null
  | undef
  | arr (elems : List Value)
  | obj (fields : List (String × Value))
  | fn (f : FuncVal)

/-- Structural equality of values, modelling `Z.equals` and the identity
check of the seen-objects list. -/
def Value.beq : Value → Value → Bool
  | .num a, .num b => a == b
  | .str a, .str b => a == b
  | .bool a, .bool b => a == b
  | .null, .null => true
  | .undef, .undef => true
  | .arr xs, .arr ys => beqList xs ys
  | .obj xs, .obj ys => beqFields xs ys
  | .fn a, .fn b => a == b
  | _, _ => false
where
  beqList : List Value → List Value → Bool
    | [], [] => true
    | x :: xs, y :: ys => Value.beq x y && beqList xs ys
    | _, _ => false
  beqFields : List (String × Value) → List (String × Value) → Bool
    | [], [] => true
    | (k, x) :: xs, (k', y) :: ys => k == k' && Value.beq x y && beqFields xs ys
    | _, _ => false

/-- Property lookup on a plain object value. -/
def lookupField : List (String × Value) → String → Option Value
  | [], _ => none
  | (k, v) :: rest, key => if k = key then some v else lookupField rest key

/-- `$$type` from the source: the `Object.prototype.toString` tag, with the
`@@type` string override honoured for plain objects. -/
def typeOf : Value → String
  | .num _ => "Number"
  | .str _ => "String"
  | .bool _ => "Boolean"
  | .null => "Null"
  | .undef => "Undefined"
  | .arr _ => "Array"
  | .obj fields =>
    match lookupField fields "@@type" with
    | some (.str s) => s
    | _ => "Object"
  | .fn _ => "Function"

/-- `typeof x === 'object' && x != null || typeof x === 'function'`:
the values tracked by the seen-objects cycle check. -/
def isObjectLike : Value → Bool
  | .arr _ => true
  | .obj _ => true
  | .fn _ => true
  | _ => false

/-- The placeholder test from `curry`: an object value whose
`@@functional/placeholder` property is `true`. -/
def isPlaceholder : Value → Bool
  | .obj fields =>
    match lookupField fields "@@functional/placeholder" with
    | some (.bool true) => true
    | _ => false
  | _ => false

/-- The variant tags of `createType` (`NULLARY`, `UNARY`, ...). -/
inductive TypeTag where
  | UNKNOWN | INCONSISTENT | VARIABLE | NULLARY | UNARY | BINARY | ENUM | RECORD | FUNCTION
deriving DecidableEq

mutual
/-- A sanctuary-def `Type` value: variant tag, name, the shallow recognizer
predicate passed to `createType`, and the ordered child slots (`keys` plus
the `types` map of the source, kept together as an ordered list). -/
inductive SDType where
  | mk (tag : TypeTag) (name : String) (recognize : Value → Bool) (children : Children)
/-- The ordered child slots of a type: key, extractor, sub-type. -/
inductive Children where
  | nil
  | cons (key : String) (extractor : Value → List Value) (child : SDType) (rest : Children)
end

def SDType.tag : SDType → TypeTag
  | .mk t _ _ _ => t

def SDType.name : SDType → String
  | .mk _ n _ _ => n

def SDType.recognize : SDType → (Value → Bool)
  | .mk _ _ p _ => p

def SDType.children : SDType → Children
  | .mk _ _ _ ch => ch

def Children.keysList : Children → List String
  | .nil => []
  | .cons k _ _ rest => k :: rest.keysList

/-- `t.keys` of the source. -/
def SDType.keys (t : SDType) : List String := t.children.keysList

def Children.toList : Children → List (String × (Value → List Value) × SDType)
  | .nil => []
  | .cons k ex c rest => (k, ex, c) :: rest.toList

/-- The entries of `t.types` in `t.keys` order. -/
def SDType.childrenList (t : SDType) : List (String × (Value → List Value) × SDType) :=
  t.children.toList

/-- Lookup of `t.types[k]`. -/
def SDType.childEntry (t : SDType) (key : String) : Option ((Value → List Value) × SDType) :=
  go t.children
where
  go : Children → Option ((Value → List Value) × SDType)
    | .nil => none
    | .cons k ex c rest => if k = key then some (ex, c) else go rest

/-- `t.types[k].extractor`, with an inert default for absent keys. -/
def SDType.extractorAt (t : SDType) (key : String) : Value → List Value :=
  match t.childEntry key with
  | some (ex, _) => ex
  | none => fun _ => []

/-- `t.types[k].type`, defaulting to `Unknown`-shaped placeholder for
absent keys (such lookups never occur on the source's own code paths). -/
def SDType.childTypeAt (t : SDType) (key : String) : SDType :=
  match t.childEntry key with
  | some (_, c) => c
  | none => .mk .UNKNOWN "" (fun _ => true) .nil

/-- The error payload of a failing `validate`: the offending value and the
property path leading to it. -/
structure VErr where
  value : Value
  propPath : List String

mutual
/-- `validate` as defined inside `createType`: run the shallow recognizer,
then walk the child slots in key order, running every extracted child value
through the child sub-type's `validate`, returning the first failure with
its property path. -/
def SDType.validate : SDType → Value → Except VErr Value
  | .mk _ _ recognize ch, x =>
    if recognize x then
      match Children.firstErr ch x with
      | none => .ok x
      | some e => .error e
    else .error ⟨x, []⟩

/-- The first failure among the child slots, in key order. -/
def Children.firstErr : Children → Value → Option VErr
  | .nil, _ => none
  | .cons k ex c rest, x =>
    match (ex x).findSome? (fun y =>
        match SDType.validate c y with
        | .error e => some e
        | .ok _ => none) with
    | some e => some ⟨e.value, k :: e.propPath⟩
    | none => Children.firstErr rest x
end

/-- The first failure among a sequence of extracted child values (the inner
loop of `validate`). -/
def seqFirstErr (c : SDType) (ys : List Value) : Option VErr :=
  ys.findSome? (fun y =>
    match SDType.validate c y with
    | .error e => some e
    | .ok _ => none)

/-- `t._test` of the source: deep membership, `validate(x).isRight`. -/
def SDType.deepTest (t : SDType) (x : Value) : Bool :=
  (t.validate x).isOk

/- ### Type constructors -/

def NullaryType (name : String) (recognize : Value → Bool) : SDType :=
  .mk .NULLARY name recognize .nil

def UnaryType (name : String) (recognize : Value → Bool)
    (ex : Value → List Value) (inner : SDType) : SDType :=
  .mk .UNARY name recognize (.cons "$1" ex inner .nil)

def BinaryType (name : String) (recognize : Value → Bool)
    (ex1 ex2 : Value → List Value) (inner1 inner2 : SDType) : SDType :=
  .mk .BINARY name recognize (.cons "$1" ex1 inner1 (.cons "$2" ex2 inner2 .nil))

def EnumType (members : List Value) : SDType :=
  .mk .ENUM "" (fun x => members.any (fun m => Value.beq m x)) .nil

/-- `RecordType`: one child per (already key-sorted) field, extractor
`x => [x[k]]`; membership requires the value to be non-null and to carry
every declared key. -/
def RecordType (fields : List (String × SDType)) : SDType :=
  .mk .RECORD ""
    (fun x =>
      match x with
      | .obj fs => fields.all (fun kv => (lookupField fs kv.1).isSome)
      | .null => false
      | .undef => false
      | _ => fields.isEmpty)
    (childrenOf fields)
where
  childrenOf : List (String × SDType) → Children
    | [] => .nil
    | (k, t) :: rest =>
      .cons k (fun x => [(match x with
                          | .obj fs => (lookupField fs k).getD .undef
                          | _ => .undef)]) t (childrenOf rest)

def TypeVariable (name : String) : SDType :=
  .mk .VARIABLE name (fun _ => true) .nil

def UnaryTypeVariable (name : String) (inner : SDType) : SDType :=
  .mk .VARIABLE name (fun _ => true) (.cons "$1" (fun _ => []) inner .nil)

def BinaryTypeVariable (name : String) (inner1 inner2 : SDType) : SDType :=
  .mk .VARIABLE name (fun _ => true)
    (.cons "$1" (fun _ => []) inner1 (.cons "$2" (fun _ => []) inner2 .nil))

def Unknown : SDType := .mk .UNKNOWN "" (fun _ => true) .nil

def Inconsistent : SDType := .mk .INCONSISTENT "" (fun _ => false) .nil

/-- `$.Function`: every positional slot has an empty extractor; the last
slot is the result type.  The recognizer is `AnyFunction`'s. -/
def FunctionType (types : List SDType) : SDType :=
  .mk .FUNCTION "" (fun x => typeOf x == "Function") (childrenOf types 1)
where
  childrenOf : List SDType → Nat → Children
    | [], _ => .nil
    | t :: rest, i => .cons ("$" ++ toString i) (fun _ => []) t (childrenOf rest (i + 1))

/-- `type0` of the source. -/
def type0 (name : String) : SDType :=
  NullaryType name (fun x => typeOf x == name)

def NumberT : SDType := type0 "Number"
def StringT : SDType := type0 "String"
def BooleanT : SDType := type0 "Boolean"
def NullT : SDType := type0 "Null"
def AnyT : SDType := NullaryType "sanctuary-def/Any" (fun _ => true)

/-- `$.Array`, i.e. `type1('Array', id)` applied to an inner type. -/
def ArrayT (inner : SDType) : SDType :=
  UnaryType "Array" (fun x => typeOf x == "Array")
    (fun x => match x with | .arr xs => xs | _ => []) inner

/-- `fromUnaryType`: re-lift a unary type, using its deep `_test` as the
new shallow recognizer and keeping its `$1` extractor. -/
def fromUnaryType (t : SDType) (inner : SDType) : SDType :=
  UnaryType t.name t.deepTest (t.extractorAt "$1") inner

/-- `xprod`: all binary specialisations of `t` over the two candidate
lists, in the source's nesting order. -/
def xprod (t : SDType) (s1 s2 : List SDType) : List SDType :=
  s1.flatMap (fun a => s2.map (fun b =>
    BinaryType t.name t.deepTest (t.extractorAt "$1") (t.extractorAt "$2") a b))

/- ### Function-free observations, for concrete computations in proofs -/

def TypeTag.label : TypeTag → String
  | .UNKNOWN => "UNKNOWN"
  | .INCONSISTENT => "INCONSISTENT"
  | .VARIABLE => "VARIABLE"
  | .NULLARY => "NULLARY"
  | .UNARY => "UNARY"
  | .BINARY => "BINARY"
  | .ENUM => "ENUM"
  | .RECORD => "RECORD"
  | .FUNCTION => "FUNCTION"

mutual
/-- A function-free structural picture of a type (tag, name, child keys,
child pictures), used to state concrete facts about computed types without
comparing the embedded predicates. -/
def SDType.encode : SDType → String
  | .mk tag name _ ch => "(" ++ tag.label ++ " " ++ name ++ Children.encode ch ++ ")"
def Children.encode : Children → String
  | .nil => ""
  | .cons k _ c rest => " [" ++ k ++ " " ++ c.encode ++ "]" ++ Children.encode rest
end

def Value.encode : Value → String
  | .num n => "num " ++ toString n
  | .str s => "str " ++ s
  | .bool b => "bool " ++ toString b
  | .null => "null"
  | .undef => "undef"
  | .arr xs => "(arr" ++ encodeList xs ++ ")"
  | .obj fs => "(obj" ++ encodeFields fs ++ ")"
  | .fn f => "(fn " ++ encodeFn f ++ ")"
where
  encodeList : List Value → String
    | [] => ""
    | x :: xs => " " ++ Value.encode x ++ encodeList xs
  encodeFields : List (String × Value) → String
    | [] => ""
    | (k, x) :: xs => " " ++ k ++ ": " ++ Value.encode x ++ encodeFields xs
  encodeFn : FuncVal → String
    | .raw tag => "raw " ++ tag
    | .wrapped f => "wrapped (" ++ encodeFn f ++ ")"

/- ### Candidate-type inference (_determineActualTypes) -/

/-- Option-valued flat-map over a list (fuel exhaustion propagates as
`none`). -/
def listFlatMapM (f : α → Option (List β)) : List α → Option (List β)
  | [] => some []
  | x :: xs =>
    match f x with
    | none => none
    | some ys =>
      match listFlatMapM f xs with
      | none => none
      | some zs => some (ys ++ zs)

/-- Option-valued left fold over a list. -/
def listFoldlM (f : β → α → Option β) : β → List α → Option β
  | b, [] => some b
  | b, x :: xs =>
    match f b x with
    | none => none
    | some b2 => listFoldlM f b2 xs

/-- `or` of the source: the first list unless it is empty. -/
def orL (xs ys : List α) : List α := if xs.isEmpty then ys else xs

mutual
/-- `_determineActualTypes`: refine the working set of candidate types over
the observed values; `[Unknown]` for an empty value list; in loose mode an
empty refinement collapses to `[Inconsistent]`.  The `Nat` argument is
recursion fuel (the JS original can diverge on adversarial extractors);
`none` means the fuel ran out. -/
def determineActualTypes :
    Nat → Bool → List SDType → List SDType → List Value → List Value →
      Option (List SDType)
  | 0, _, _, _, _, _ => none
  | fuel+1, loose, env, types, seen, values =>
    if values.isEmpty then some [Unknown]
    else
      match refineAll fuel loose env seen types values with
      | none => none
      | some res => some (orL res (if loose then [Inconsistent] else []))

/-- `Z.reduce(refine, types, values)` of `_determineActualTypes`. -/
def refineAll :
    Nat → Bool → List SDType → List Value → List SDType → List Value →
      Option (List SDType)
  | 0, _, _, _, _, _ => none
  | fuel+1, loose, env, seen, types, values =>
    listFoldlM (refineOne fuel loose env seen) types values

/-- One `refine(types, value)` step of `_determineActualTypes`: the
circular-reference check against `seen`, then `Z.chain` of the per-type
refinement. -/
def refineOne :
    Nat → Bool → List SDType → List Value → List SDType → Value →
      Option (List SDType)
  | 0, _, _, _, _, _ => none
  | fuel+1, loose, env, seen, types, value =>
    if isObjectLike value && seen.any (fun s => Value.beq s value) then some []
    else
      let seen2 := if isObjectLike value then seen ++ [value] else seen
      listFlatMapM (fun t =>
        if t.name == "sanctuary-def/Nullable" || !(t.deepTest value) then some []
        else if t.tag == TypeTag.UNARY then
          match determineActualTypes fuel loose env env seen2
              (t.extractorAt "$1" value) with
          | none => none
          | some inner => some (inner.map (fromUnaryType t))
        else if t.tag == TypeTag.BINARY then
          match (if (t.childTypeAt "$1").tag == TypeTag.UNKNOWN then
                   determineActualTypes fuel loose env env seen2
                     (t.extractorAt "$1" value)
                 else some [t.childTypeAt "$1"]) with
          | none => none
          | some s1 =>
            match (if (t.childTypeAt "$2").tag == TypeTag.UNKNOWN then
                     determineActualTypes fuel loose env env seen2
                       (t.extractorAt "$2" value)
                   else some [t.childTypeAt "$2"]) with
            | none => none
            | some s2 => some (xprod t s1 s2)
        else some [t]) types
end

/-- `rejectInconsistent`: drop the `Unknown` and `Inconsistent` sentinels. -/
def rejectInconsistent (types : List SDType) : List SDType :=
  types.filter (fun t =>
    match t.tag with
    | .INCONSISTENT => false
    | .UNKNOWN => false
    | _ => true)

/-- `determineActualTypesStrict`. -/
def determineActualTypesStrict (fuel : Nat) (env types : List SDType)
    (values : List Value) : Option (List SDType) :=
  (determineActualTypes fuel false env types [] values).map rejectInconsistent

/-- `determineActualTypesLoose`. -/
def determineActualTypesLoose (fuel : Nat) (env types : List SDType)
    (values : List Value) : Option (List SDType) :=
  (determineActualTypes fuel true env types [] values).map rejectInconsistent

/- ### C5: monotonicity of inference under value addition -/

/-- The per-value keep-predicate of `refine` for non-parameterized
candidates: not the `Nullable` constructor, and the deep test accepts. -/
def keepPred (v : Value) (t : SDType) : Bool :=
  !(t.name == "sanctuary-def/Nullable") && t.deepTest v

/-- What one `refine` step does to a working set free of Unary/Binary
candidates: the circular-reference cut, else a filter. -/
def stepFn (seen : List Value) (ts : List SDType) (v : Value) : List SDType :=
  if isObjectLike v && seen.any (fun s => Value.beq s v) then []
  else ts.filter (keepPred v)

/- ### The constraint solver -/

/-- An external type class (sanctuary-type-classes): a name and a
membership predicate. -/
structure TClass where
  name : String
  test : Value → Bool

/-- `TypeInfo`: one signature. -/
structure TypeInfo where
  name : String
  constraints : List (String × List TClass)
  types : List SDType

/-- One entry of a `TypeVarMap`. -/
structure TVEntry where
  types : List SDType
  valuesByPath : List (String × List Value)

/-- `TypeVarMap`, as an insertion-ordered association list (mirroring JS
object key order). -/
abbrev TypeVarMap := List (String × TVEntry)

def alistLookup : List (String × α) → String → Option α
  | [], _ => none
  | (k, v) :: rest, key => if k == key then some v else alistLookup rest key

def alistHas (m : List (String × α)) (key : String) : Bool :=
  (alistLookup m key).isSome

/-- JS object assignment: replace in place (keeping key order), append if
absent. -/
def alistUpdate : List (String × α) → String → α → List (String × α)
  | [], key, v => [(key, v)]
  | (k, w) :: rest, key, v =>
    if k == key then (key, v) :: rest else (k, w) :: alistUpdate rest key v

/-- `JSON.stringify(Z.concat([index], propPath))`: the serialized key of a
variable occurrence. -/
def serKey (index : Nat) (propPath : List String) : String :=
  "[" ++ toString index ++
    propPath.foldl (fun s k => s ++ ",\"" ++ k ++ "\"") "" ++ "]"

/-- The four error shapes of the solver, by their raw context (the
rendering layer is out of scope; these fields are what it consumes). -/
inductive SDErr where
  | invalidValue (index : Nat) (propPath : List String) (value : Value)
  | typeClassViolation (className : String) (index : Nat) (propPath : List String)
      (value : Value)
  | typeVarViolation (index : Nat) (propPath : List String)
      (valuesByPath : List (String × List Value))
  | invalidArgumentsLength (name : String) (expected : Nat) (received : Nat)
  | invalidArgumentsLengthAt (index : Nat) (expected : Nat) (args : List Value)

/-- The success payload of `satisfactoryTypes`. -/
structure SatRes where
  typeVarMap : TypeVarMap
  types : List SDType

/-- The body of the initial `for` loop of `satisfactoryTypes`: the first
validation failure of a value against the expected type. -/
def validateErr (t : SDType) (x : Value) : Option VErr :=
  match t.validate x with
  | .error e => some e
  | .ok _ => none

/-- The type-class check of the `VARIABLE` case: the first (class, value)
pair for which the declared type class rejects the value. -/
def tcViolationCheck (tcs : List TClass) (x : Value) : Option (String × Value) :=
  tcs.findSome? (fun tc => if tc.test x then none else some (tc.name, x))

/-- Option-valued short-circuiting `every`. -/
def listAllM (f : α → Option Bool) : List α → Option Bool
  | [] => some true
  | x :: xs =>
    match f x with
    | none => none
    | some false => some false
    | some true => listAllM f xs

mutual
/-- `$.test`: membership via the full solver. -/
def sdTest : Nat → List SDType → SDType → Value → Option Bool
  | 0, _, _, _ => none
  | fuel+1, env, t, x =>
    match satisfactoryTypes fuel env ⟨"name", [], [t]⟩ [] t 0 [] [x] with
    | none => none
    | some (.ok _) => some true
    | some (.error _) => some false
termination_by structural fuel _ _ _ => fuel

/-- One candidate's refinement inside `updateTypeVarMap`'s `Z.chain`:
dropped if `$.test` rejects the value; filtered by the children check when
the variable has child slots; otherwise specialised (Unary/Binary with an
Unknown child and a non-empty extraction) or kept. -/
def updRefineCandidate :
    Nat → List SDType → SDType → Value → SDType → Option (List SDType)
  | 0, _, _, _, _ => none
  | fuel+1, env, typeVar, value, t =>
    match sdTest fuel env t value with
    | none => none
    | some tv =>
      if !tv then some []
      else if typeVar.keys.length > 0 then
        if t.tag == TypeTag.RECORD then some []
        else if t.keys.length < typeVar.keys.length then some []
        else
          match listAllM (fun k =>
              let xs := t.extractorAt k value
              if xs.isEmpty then some true
              else
                match determineActualTypesStrict fuel env env xs with
                | none => none
                | some das => some (!das.isEmpty))
            (t.keys.drop (t.keys.length - typeVar.keys.length)) with
          | none => none
          | some true => some [t]
          | some false => some []
      else if t.tag == TypeTag.UNARY then
        if (t.childTypeAt "$1").tag == TypeTag.UNKNOWN
            && !(t.extractorAt "$1" value).isEmpty then
          match determineActualTypesStrict fuel env env
              (t.extractorAt "$1" value) with
          | none => none
          | some das => some (das.map (fromUnaryType t))
        else some [t]
      else if t.tag == TypeTag.BINARY then
        match (if (t.childTypeAt "$1").tag == TypeTag.UNKNOWN
                  && !(t.extractorAt "$1" value).isEmpty then
                 determineActualTypesStrict fuel env env
                   (t.extractorAt "$1" value)
               else some [t.childTypeAt "$1"]) with
        | none => none
        | some s1 =>
          match (if (t.childTypeAt "$2").tag == TypeTag.UNKNOWN
                    && !(t.extractorAt "$2" value).isEmpty then
                   determineActualTypesStrict fuel env env
                     (t.extractorAt "$2" value)
                 else some [t.childTypeAt "$2"]) with
          | none => none
          | some s2 => some (xprod t s1 s2)
      else some [t]
termination_by structural fuel _ _ _ _ => fuel

/-- The per-value body of `updateTypeVarMap`'s `values.forEach`: push the
value under the serialized key and refine the variable's candidate list by
the source's single `Z.chain` pass. -/
def updateTypeVarMapStep :
    Nat → List SDType → SDType → String → TypeVarMap → Value →
      Option TypeVarMap
  | 0, _, _, _, _, _ => none
  | fuel+1, env, typeVar, key, m, value =>
    match alistLookup m typeVar.name with
    | none => none
    | some entry =>
      let vbp :=
        match alistLookup entry.valuesByPath key with
        | some vs => alistUpdate entry.valuesByPath key (vs ++ [value])
        | none => alistUpdate entry.valuesByPath key [value]
      match listFlatMapM (updRefineCandidate fuel env typeVar value)
          entry.types with
      | none => none
      | some newTypes =>
        some (alistUpdate m typeVar.name ⟨newTypes, vbp⟩)
termination_by structural fuel _ _ _ _ _ => fuel

/-- `updateTypeVarMap`: refine (a copy of) the map at the variable's entry
against the observed values, accumulating them under the serialized
(index, path) key. -/
def updateTypeVarMap :
    Nat → List SDType → TypeVarMap → SDType → Nat → List String → List Value →
      Option TypeVarMap
  | 0, _, _, _, _, _, _ => none
  | fuel+1, env, typeVarMap, typeVar, index, propPath, values =>
    let m0 := if alistHas typeVarMap typeVar.name then typeVarMap
              else alistUpdate typeVarMap typeVar.name ⟨env, []⟩
    let key := serKey index propPath
    let m1 :=
      match alistLookup m0 typeVar.name with
      | none => m0
      | some entry =>
        if alistHas entry.valuesByPath key then m0
        else alistUpdate m0 typeVar.name
          ⟨entry.types, alistUpdate entry.valuesByPath key []⟩
    listFoldlM (updateTypeVarMapStep fuel env typeVar key) m1 values
termination_by structural fuel _ _ _ _ _ _ => fuel

/-- The inner per-value check of the `VARIABLE` case's `Z.reduce`: for a
unary/binary type variable, each value extracted by the candidate's
last-keyed extractor must be a member of the variable's declared inner
type, unless that inner type is itself a variable. -/
def satVarInnerStep :
    Nat → List SDType → SDType → Nat → List String → String →
      Except (Unit → SDErr) SatRes → Value →
      Option (Except (Unit → SDErr) SatRes)
  | 0, _, _, _, _, _, _, _ => none
  | fuel+1, env, c1, index, propPath, k, e2, x =>
    match e2 with
    | .error err => some (.error err)
    | .ok r2 =>
      if c1.tag == TypeTag.VARIABLE then some (.ok r2)
      else
        match sdTest fuel env c1 x with
        | none => none
        | some true => some (.ok r2)
        | some false =>
          some (.error (fun _ => .invalidValue index (propPath ++ [k]) x))
termination_by structural fuel _ _ _ _ _ _ _ => fuel

/-- The per-candidate step of the `VARIABLE` case's `Z.reduce`. -/
def satVarStep :
    Nat → List SDType → SDType → Nat → List String → List Value →
      Except (Unit → SDErr) SatRes → SDType →
      Option (Except (Unit → SDErr) SatRes)
  | 0, _, _, _, _, _, _, _ => none
  | fuel+1, env, expType, index, propPath, values, e, t =>
    if expType.keys.isEmpty || t.keys.isEmpty then some e
    else
      match e with
      | .error err => some (.error err)
      | .ok r =>
        let c1 := expType.childTypeAt (expType.keys.headD "$1")
        let k := t.keys.getLastD "$1"
        let innerValues := values.flatMap (t.extractorAt k)
        listFoldlM (satVarInnerStep fuel env c1 index propPath k)
          (Except.ok r) innerValues
termination_by structural fuel _ _ _ _ _ _ _ => fuel

/-- `satisfactoryTypes`: walk the expected type against the observed
values, threading the type-variable map; failures are deferred thunks. -/
def satisfactoryTypes :
    Nat → List SDType → TypeInfo → TypeVarMap → SDType → Nat → List String →
      List Value → Option (Except (Unit → SDErr) SatRes)
  | 0, _, _, _, _, _, _, _ => none
  | fuel+1, env, typeInfo, typeVarMap, expType, index, propPath, values =>
    match values.findSome? (validateErr expType) with
    | some e => some (.error (fun _ => .invalidValue index e.propPath e.value))
    | none =>
      if expType.tag == TypeTag.VARIABLE then
        match values.findSome?
            (tcViolationCheck
              ((alistLookup typeInfo.constraints expType.name).getD [])) with
        | some (tcName, x) =>
          some (.error (fun _ => .typeClassViolation tcName index propPath x))
        | none =>
          match updateTypeVarMap fuel env typeVarMap expType index propPath
              values with
          | none => none
          | some tvm2 =>
            match alistLookup tvm2 expType.name with
            | none => none
            | some entry =>
              if entry.types.isEmpty && !values.isEmpty then
                some (.error (fun _ =>
                  .typeVarViolation index propPath entry.valuesByPath))
              else
                listFoldlM (satVarStep fuel env expType index propPath values)
                  (Except.ok ⟨tvm2, entry.types⟩) entry.types
      else if expType.tag == TypeTag.UNARY then
        match satisfactoryTypes fuel env typeInfo typeVarMap
            (expType.childTypeAt "$1") index (propPath ++ ["$1"])
            (values.flatMap (expType.extractorAt "$1")) with
        | none => none
        | some (.error e) => some (.error e)
        | some (.ok r) =>
          some (.ok ⟨r.typeVarMap,
            (orL r.types [expType.childTypeAt "$1"]).map (fromUnaryType expType)⟩)
      else if expType.tag == TypeTag.BINARY then
        match satisfactoryTypes fuel env typeInfo typeVarMap
            (expType.childTypeAt "$1") index (propPath ++ ["$1"])
            (values.flatMap (expType.extractorAt "$1")) with
        | none => none
        | some (.error e) => some (.error e)
        | some (.ok r1) =>
          match satisfactoryTypes fuel env typeInfo r1.typeVarMap
              (expType.childTypeAt "$2") index (propPath ++ ["$2"])
              (values.flatMap (expType.extractorAt "$2")) with
          | none => none
          | some (.error e) => some (.error e)
          | some (.ok r2) =>
            some (.ok ⟨r2.typeVarMap,
              xprod expType (orL r1.types [expType.childTypeAt "$1"])
                (orL r2.types [expType.childTypeAt "$2"])⟩)
      else if expType.tag == TypeTag.RECORD then
        listFoldlM (fun e kentry =>
          match e with
          | .error err => some (.error err)
          | .ok r =>
            satisfactoryTypes fuel env typeInfo r.typeVarMap kentry.2.2 index
              (propPath ++ [kentry.1]) (values.flatMap kentry.2.1))
          (Except.ok ⟨typeVarMap, [expType]⟩) expType.childrenList
      else some (.ok ⟨typeVarMap, [expType]⟩)
termination_by structural fuel _ _ _ _ _ _ _ => fuel
end


/- ### Helper views of the solver state -/

/-- The starting entry of a variable in `updateTypeVarMap`: the existing
entry, or a fresh one whose candidate list is a snapshot of `env`. -/
def updStartEntry (env : List SDType) (m : TypeVarMap) (name : String) : TVEntry :=
  match alistLookup m name with
  | some e => e
  | none => ⟨env, []⟩

/-- Is this error the type-variable constraint violation? -/
def SDErr.isTypeVarViolation : SDErr → Bool
  | .typeVarViolation _ _ _ => true
  | _ => false

/-- The result carries no type-variable violation error. -/
def NoTVV (r : Except (Unit → SDErr) SatRes) : Prop :=
  ∀ e, r = .error e → ∀ u, (e u).isTypeVarViolation = false

/-- A type with no solver-special structure: not a variable and not one of
the child-bearing tags whose candidates get specialised. -/
def plainType (t : SDType) : Prop :=
  t.tag ≠ TypeTag.VARIABLE ∧ t.tag ≠ TypeTag.UNARY ∧
  t.tag ≠ TypeTag.BINARY ∧ t.tag ≠ TypeTag.RECORD

/-- Every candidate accepts every recorded value. -/
def StrongInv (e : TVEntry) : Prop :=
  ∀ T ∈ e.types, ∀ pr ∈ e.valuesByPath, ∀ v ∈ pr.2,
    ((T.validate v).isOk) = true

/- ### The curried dispatch of `def` -/

/-- `wrapFunction` as observed through the value domain: proxying a function
value produces a distinguishable wrapper (non-functions never reach a
FUNCTION-typed slot through a passing check). -/
def wrapValue : Value → Value
  | .fn f => .fn (.wrapped f)
  | v => v

/-- `wrapFunctions`: wrap the value at every FUNCTION-typed position. -/
def wrapFunctions : List SDType → List Value → List Value
  | _, [] => []
  | [], v :: vs => v :: wrapFunctions [] vs
  | t :: ts, v :: vs =>
    (if t.tag == TypeTag.FUNCTION then wrapValue v else v) :: wrapFunctions ts vs

/-- What one call of a curried wrapper produces: a further wrapper (with its
new state) or the implementation's result. -/
inductive CurryOutcome where
  | again (tvm : TypeVarMap) (values : List (Option Value)) (indexes : List Nat)
  | done (v : Value)

/-- The argument-processing loop of `curry`'s wrapper: walk the open slots,
fill each from the positional argument unless it is missing or a
placeholder, checking (and threading the type-variable map) when
`checkTypes` is set. -/
def processArgs (fuel : Nat) (checkTypes : Bool) (env : List SDType)
    (ti : TypeInfo) :
    TypeVarMap → List (Option Value) → List Nat → Nat → List Value →
      Option (Except SDErr (TypeVarMap × List (Option Value) × List Nat))
  | tvm, values, [], _, _ => some (.ok (tvm, values, []))
  | tvm, values, index :: rest, idx, args =>
    match args[idx]? with
    | some a =>
      if isPlaceholder a then
        match processArgs fuel checkTypes env ti tvm values rest (idx+1) args with
        | none => none
        | some (.error e) => some (.error e)
        | some (.ok (tvm2, vals2, idxs2)) =>
          some (.ok (tvm2, vals2, index :: idxs2))
      else
        if checkTypes then
          match satisfactoryTypes fuel env ti tvm ((ti.types[index]?).getD Unknown)
              index [] [a] with
          | none => none
          | some (.error e) => some (.error (e ()))
          | some (.ok r) =>
            processArgs fuel checkTypes env ti r.typeVarMap
              (values.set index (some a)) rest (idx+1) args
        else
          processArgs fuel checkTypes env ti tvm (values.set index (some a))
            rest (idx+1) args
    | none =>
      match processArgs fuel checkTypes env ti tvm values rest (idx+1) args with
      | none => none
      | some (.error e) => some (.error e)
      | some (.ok (tvm2, vals2, idxs2)) =>
        some (.ok (tvm2, vals2, index :: idxs2))

/-- Read the (by then fully filled) slot array off as the implementation's
argument list. -/
def finishValues (values : List (Option Value)) : List Value :=
  values.map (fun o => o.getD Value.undef)

/-- One call of the wrapper `curry` builds: the arity guard, the
argument-processing loop, then either a further wrapper or the (checked)
implementation result. -/
def applyCurried (fuel : Nat) (checkTypes : Bool) (env : List SDType)
    (ti : TypeInfo) (tvm : TypeVarMap) (values : List (Option Value))
    (indexes : List Nat) (impl : List Value → Value) (args : List Value) :
    Option (Except SDErr CurryOutcome) :=
  if checkTypes && decide (indexes.length < args.length) then
    some (.error (.invalidArgumentsLength ti.name (ti.types.length - 1)
      (ti.types.length - 1 + args.length - indexes.length)))
  else
    match processArgs fuel checkTypes env ti tvm values indexes 0 args with
    | none => none
    | some (.error e) => some (.error e)
    | some (.ok (tvm2, vals2, idxs2)) =>
      if idxs2.isEmpty then
        if checkTypes then
          let rv := impl (wrapFunctions ti.types (finishValues vals2))
          match satisfactoryTypes fuel env ti tvm2
              ((ti.types[ti.types.length - 1]?).getD Unknown)
              (ti.types.length - 1) [] [rv] with
          | none => none
          | some (.error e) => some (.error (e ()))
          | some (.ok _) => some (.ok (.done rv))
        else some (.ok (.done (impl (finishValues vals2))))
      else some (.ok (.again tvm2 vals2 idxs2))

/-- The callable `def` returns: all slots open, no type-variable knowledge. -/
def defCurried (fuel : Nat) (checkTypes : Bool) (env : List SDType)
    (name : String) (constraints : List (String × List TClass))
    (expTypes : List SDType) (impl : List Value → Value) (args : List Value) :
    Option (Except SDErr CurryOutcome) :=
  applyCurried fuel checkTypes env ⟨name, constraints, expTypes⟩ []
    (List.replicate (expTypes.length - 1) none)
    (List.range (expTypes.length - 1)) impl args

/-- Plain slot-filling as the spec words it: left to right, skipping
placeholders and missing arguments, no validation and no solver activity. -/
def specFillPlain : List (Option Value) → List Nat → Nat → List Value →
    (List (Option Value) × List Nat)
  | values, [], _, _ => (values, [])
  | values, index :: rest, idx, args =>
    match args[idx]? with
    | some a =>
      if isPlaceholder a then
        let r := specFillPlain values rest (idx+1) args
        (r.1, index :: r.2)
      else
        specFillPlain (values.set index (some a)) rest (idx+1) args
    | none =>
      let r := specFillPlain values rest (idx+1) args
      (r.1, index :: r.2)

/-- Plain currying as the spec words it. -/
def specPlainCurry (tvm : TypeVarMap) (values : List (Option Value))
    (indexes : List Nat) (impl : List Value → Value) (args : List Value) :
    CurryOutcome :=
  let r := specFillPlain values indexes 0 args
  if r.2.isEmpty then .done (impl (finishValues r.1))
  else .again tvm r.1 r.2

/-- All consumed positional arguments pass their slot's type check. -/
def checksPass (ti : TypeInfo) : List Nat → Nat → List Value → Prop
  | [], _, _ => True
  | index :: rest, idx, args =>
    match args[idx]? with
    | some a =>
      if isPlaceholder a = true then checksPass ti rest (idx+1) args
      else ((((ti.types[index]?).getD Unknown).validate a).isOk = true ∧
        checksPass ti rest (idx+1) args)
    | none => checksPass ti rest (idx+1) args

/-- A unary type whose recognizer accepts everything and whose child is
`Unknown`: its refine re-lift is a provable fixed point, so inference keeps
it while also adding specialised variants. -/
def c5exT : SDType :=
  UnaryType "X" (fun _ => true)
    (fun x => match x with | Value.arr l => l | _ => []) Unknown

/-- A candidate the refinement pass can only keep or drop, never replace:
either the variable has child slots (the children-check branch), or the
candidate is not a Binary type and, if Unary, its child is already
determined. -/
def filterOnly (tv t : SDType) : Prop :=
  tv.keys ≠ [] ∨
    ((t.tag = TypeTag.UNARY → (t.childTypeAt "$1").tag ≠ TypeTag.UNKNOWN) ∧
      t.tag ≠ TypeTag.BINARY)

/- ### Basic evaluation lemmas -/

theorem seqFirstErr_nil (c : SDType) : seqFirstErr c [] = none := rfl

theorem seqFirstErr_cons (c : SDType) (y : Value) (ys : List Value) :
    seqFirstErr c (y :: ys) =
      (match c.validate y with
       | .error e => some e
       | .ok _ => seqFirstErr c ys) := by
  rw [seqFirstErr, List.findSome?_cons]
  cases c.validate y <;> rfl

theorem firstErr_nil (x : Value) : Children.firstErr .nil x = none := rfl

theorem firstErr_cons (k : String) (ex : Value → List Value) (c : SDType)
    (rest : Children) (x : Value) :
    Children.firstErr (.cons k ex c rest) x =
      (match seqFirstErr c (ex x) with
       | some e => some ⟨e.value, k :: e.propPath⟩
       | none => Children.firstErr rest x) := rfl

/- ### Induction principles for the mutual type structure -/

theorem Children.induct (motive : Children → Prop) (hnil : motive .nil)
    (hcons : ∀ k ex c rest, motive rest → motive (.cons k ex c rest))
    (ch : Children) : motive ch :=
  Children.rec (motive_1 := fun _ => True) (motive_2 := motive)
    (fun _ _ _ _ _ => trivial) hnil
    (fun k ex c rest _ ih => hcons k ex c rest ih) ch

theorem SDType.inductPair (motive1 : SDType → Prop) (motive2 : Children → Prop)
    (hmk : ∀ tag name recognize ch, motive2 ch → motive1 (.mk tag name recognize ch))
    (hnil : motive2 .nil)
    (hcons : ∀ k ex c rest, motive1 c → motive2 rest → motive2 (.cons k ex c rest))
    (t : SDType) : motive1 t :=
  SDType.rec (motive_1 := motive1) (motive_2 := motive2) hmk hnil hcons t

/- ### C1: validate -/

theorem seqFirstErr_none_iff (c : SDType) (ys : List Value) :
    seqFirstErr c ys = none ↔ ∀ y ∈ ys, (c.validate y).isOk := by
  induction ys with
  | nil => simp [seqFirstErr]
  | cons y ys ih =>
    rw [seqFirstErr_cons]
    cases h : c.validate y with
    | error e => simp [h, Except.isOk, Except.toBool]
    | ok v => simp [ih, h, Except.isOk, Except.toBool]

theorem firstErr_none_iff (ch : Children) (x : Value) :
    Children.firstErr ch x = none ↔
      ∀ e ∈ ch.toList, ∀ y ∈ e.2.1 x, (e.2.2.validate y).isOk := by
  induction ch using Children.induct with
  | hnil => simp [firstErr_nil, Children.toList]
  | hcons k ex c rest ih =>
    rw [firstErr_cons]
    cases h : seqFirstErr c (ex x) with
    | some e =>
      simp only [Children.toList, List.mem_cons]
      constructor
      · intro hc; cases hc
      · intro hall
        have hnone := (seqFirstErr_none_iff c (ex x)).2 (by
          intro y hy; exact hall (k, ex, c) (Or.inl rfl) y hy)
        rw [hnone] at h; cases h
    | none =>
      have hseq := (seqFirstErr_none_iff c (ex x)).1 h
      simp only [ih, Children.toList, List.mem_cons]
      constructor
      · intro hrest e he
        rcases he with he | he
        · subst he; exact hseq
        · exact hrest e he
      · intro hall e he; exact hall e (Or.inr he)

theorem validate_isOk_iff (t : SDType) (x : Value) :
    (t.validate x).isOk ↔
      t.recognize x = true ∧
        ∀ e ∈ t.childrenList, ∀ y ∈ e.2.1 x, (e.2.2.validate y).isOk := by
  cases t with
  | mk tag name recognize ch =>
    rw [SDType.validate]
    show _ ↔ recognize x = true ∧
      ∀ e ∈ ch.toList, ∀ y ∈ e.2.1 x, (e.2.2.validate y).isOk
    cases hr : recognize x with
    | false => simp [hr, Except.isOk, Except.toBool]
    | true =>
      cases hfe : Children.firstErr ch x with
      | none =>
        simp only [hr, if_true, hfe, Except.isOk, Except.toBool, true_and]
        exact ⟨fun _ => (firstErr_none_iff ch x).1 hfe, fun _ => trivial⟩
      | some e =>
        simp only [hr, if_true, hfe, Except.isOk, Except.toBool, true_and]
        constructor
        · intro hc; cases hc
        · intro hall
          have hnone := (firstErr_none_iff ch x).2 hall
          rw [hnone] at hfe; cases hfe

theorem seqFirstErr_some_iff (c : SDType) (ys : List Value) (e : VErr) :
    seqFirstErr c ys = some e ↔
      ∃ ys1 y ys2, ys = ys1 ++ y :: ys2 ∧
        (∀ z ∈ ys1, (c.validate z).isOk) ∧ c.validate y = .error e := by
  induction ys with
  | nil =>
    rw [seqFirstErr_nil]
    constructor
    · intro hc; cases hc
    · rintro ⟨ys1, y, ys2, habs, -⟩; cases ys1 <;> simp at habs
  | cons y ys ih =>
    rw [seqFirstErr_cons]
    cases h : c.validate y with
    | error e' =>
      constructor
      · intro he; cases he
        exact ⟨[], y, ys, rfl, by simp, h⟩
      · rintro ⟨ys1, y', ys2, hsplit, hok, herr⟩
        cases ys1 with
        | nil =>
          simp only [List.nil_append, List.cons.injEq] at hsplit
          obtain ⟨h1, h2⟩ := hsplit
          subst h1
          rw [h] at herr; cases herr; rfl
        | cons z zs =>
          simp only [List.cons_append, List.cons.injEq] at hsplit
          obtain ⟨h1, h2⟩ := hsplit
          subst h1
          have hzok := hok y (List.mem_cons_self _ _)
          rw [h] at hzok; simp [Except.isOk, Except.toBool] at hzok
    | ok v =>
      rw [ih]
      constructor
      · rintro ⟨ys1, y', ys2, hsplit, hok, herr⟩
        refine ⟨y :: ys1, y', ys2, by simp [hsplit], ?_, herr⟩
        intro z hz
        rcases List.mem_cons.mp hz with rfl | hz
        · simp [h, Except.isOk, Except.toBool]
        · exact hok z hz
      · rintro ⟨ys1, y', ys2, hsplit, hok, herr⟩
        cases ys1 with
        | nil =>
          simp only [List.nil_append, List.cons.injEq] at hsplit
          obtain ⟨h1, h2⟩ := hsplit
          subst h1
          rw [h] at herr; cases herr
        | cons z zs =>
          simp only [List.cons_append, List.cons.injEq] at hsplit
          obtain ⟨h1, h2⟩ := hsplit
          subst h1
          exact ⟨zs, y', ys2, h2, fun w hw => hok w (List.mem_cons_of_mem _ hw), herr⟩

theorem firstErr_some_iff (ch : Children) (x : Value) (e : VErr) :
    Children.firstErr ch x = some e ↔
      ∃ pre k ex c post, ch.toList = pre ++ (k, ex, c) :: post ∧
        (∀ p ∈ pre, ∀ y ∈ p.2.1 x, (p.2.2.validate y).isOk) ∧
        ∃ ys1 y ys2 tail, ex x = ys1 ++ y :: ys2 ∧
          (∀ z ∈ ys1, (c.validate z).isOk) ∧
          c.validate y = .error ⟨e.value, tail⟩ ∧ e.propPath = k :: tail := by
  induction ch using Children.induct with
  | hnil =>
    rw [firstErr_nil]
    constructor
    · intro hc; cases hc
    · rintro ⟨pre, k, ex, c, post, habs, -⟩
      have : (Children.nil).toList = [] := rfl
      rw [this] at habs; cases pre <;> simp at habs
  | hcons k0 ex0 c0 rest ih =>
    rw [firstErr_cons]
    cases h : seqFirstErr c0 (ex0 x) with
    | some e' =>
      constructor
      · intro he; cases he
        rcases (seqFirstErr_some_iff c0 (ex0 x) e').1 h with ⟨ys1, y, ys2, hsp, hok, herr⟩
        refine ⟨[], k0, ex0, c0, rest.toList, rfl, by simp,
               ys1, y, ys2, e'.propPath, hsp, hok, ?_, rfl⟩
        rw [herr]
      · rintro ⟨pre, k, ex, c, post, hsplit, hpre, ys1, y, ys2, tail, hsp, hok, herr, hpath⟩
        have hl : (Children.cons k0 ex0 c0 rest).toList
            = (k0, ex0, c0) :: rest.toList := rfl
        rw [hl] at hsplit
        cases pre with
        | nil =>
          simp only [List.nil_append, List.cons.injEq, Prod.mk.injEq] at hsplit
          obtain ⟨⟨hk, hex, hc⟩, -⟩ := hsplit
          subst hk; subst hex; subst hc
          have h2 := (seqFirstErr_some_iff c0 (ex0 x) ⟨e.value, tail⟩).2
            ⟨ys1, y, ys2, hsp, hok, herr⟩
          rw [h2] at h
          cases h
          cases e with
          | mk v p =>
            simp only at hpath
            rw [hpath]
        | cons p ps =>
          simp only [List.cons_append, List.cons.injEq] at hsplit
          obtain ⟨h1, h2⟩ := hsplit
          have hp := hpre p (List.mem_cons_self _ _)
          rw [← h1] at hp
          have hnone : seqFirstErr c0 (ex0 x) = none :=
            (seqFirstErr_none_iff c0 (ex0 x)).2 hp
          rw [hnone] at h; cases h
    | none =>
      have hseq := (seqFirstErr_none_iff c0 (ex0 x)).1 h
      rw [ih]
      have hl : (Children.cons k0 ex0 c0 rest).toList
          = (k0, ex0, c0) :: rest.toList := rfl
      constructor
      · rintro ⟨pre, k, ex, c, post, hsplit, hpre, hrest⟩
        refine ⟨(k0, ex0, c0) :: pre, k, ex, c, post, by simp [hl, hsplit], ?_, hrest⟩
        intro p hp
        rcases List.mem_cons.mp hp with rfl | hp
        · exact hseq
        · exact hpre p hp
      · rintro ⟨pre, k, ex, c, post, hsplit, hpre, ys1, y, ys2, tail, hsp, hok, herr, hpath⟩
        rw [hl] at hsplit
        cases pre with
        | nil =>
          simp only [List.nil_append, List.cons.injEq, Prod.mk.injEq] at hsplit
          obtain ⟨⟨hk, hex, hc⟩, -⟩ := hsplit
          subst hk; subst hex; subst hc
          have h2 := (seqFirstErr_some_iff c0 (ex0 x) ⟨e.value, tail⟩).2
            ⟨ys1, y, ys2, hsp, hok, herr⟩
          rw [h2] at h; cases h
        | cons p ps =>
          simp only [List.cons_append, List.cons.injEq] at hsplit
          obtain ⟨h1, h2⟩ := hsplit
          exact ⟨ps, k, ex, c, post, h2, fun w hw => hpre w (List.mem_cons_of_mem _ hw),
                 ys1, y, ys2, tail, hsp, hok, herr, hpath⟩

theorem validate_error_cases (t : SDType) (x : Value) (err : VErr)
    (h : t.validate x = .error err) :
    (t.recognize x = false ∧ err.value = x ∧ err.propPath = []) ∨
      (t.recognize x = true ∧ Children.firstErr t.children x = some err) := by
  cases t with
  | mk tag name recognize ch =>
    rw [SDType.validate] at h
    cases hr : recognize x with
    | true =>
      right
      refine ⟨hr, ?_⟩
      rw [if_pos hr] at h
      show Children.firstErr ch x = some err
      cases hfe : Children.firstErr ch x <;> rw [hfe] at h
      · cases h
      · cases h; rfl
    | false =>
      left
      rw [if_neg (by simp [hr])] at h
      cases h
      exact ⟨hr, rfl, rfl⟩

/-- C1: for every `Type` `T` and value `v`, `T.validate(v)` succeeds if and
only if `T`'s shallow recognizer accepts `v` and every child value produced
by each child key's extractor is accepted by the child sub-type's
`validate`; and on failure `validate` returns the first failing value
together with the property path leading to it (the failure comes from the
first child key, in key order, whose extraction contains a failing value,
all earlier extracted values validating, with the key prepended to the
child's own path — or from the recognizer itself, with the empty path). -/
theorem C1_validate_correct (t : SDType) (x : Value) :
    ((t.validate x).isOk ↔
      t.recognize x = true ∧
        ∀ e ∈ t.childrenList, ∀ y ∈ e.2.1 x, (e.2.2.validate y).isOk) ∧
    (∀ err, t.validate x = .error err →
      (t.recognize x = false ∧ err.value = x ∧ err.propPath = []) ∨
      (t.recognize x = true ∧
        ∃ pre k ex c post, t.childrenList = pre ++ (k, ex, c) :: post ∧
          (∀ p ∈ pre, ∀ y ∈ p.2.1 x, (p.2.2.validate y).isOk) ∧
          ∃ ys1 y ys2 tail, ex x = ys1 ++ y :: ys2 ∧
            (∀ z ∈ ys1, (c.validate z).isOk) ∧
            c.validate y = .error ⟨err.value, tail⟩ ∧
            err.propPath = k :: tail)) := by
  refine ⟨validate_isOk_iff t x, ?_⟩
  intro err h
  rcases validate_error_cases t x err h with hcase | ⟨hr, hfe⟩
  · exact Or.inl hcase
  · exact Or.inr ⟨hr, (firstErr_some_iff t.children x err).1 hfe⟩

/-- Witness for C1 at a concrete input: validating `[1, "a", 2]` against
`Array Number` fails, and the theorem's error characterization holds
there (the failing value is `"a"`, the path `["$1"]`). -/
theorem C1_validate_correct_witness :
    ((ArrayT NumberT).recognize (.arr [.num 1, .str "a", .num 2]) = false ∧
       (VErr.mk (.str "a") ["$1"]).value = .arr [.num 1, .str "a", .num 2] ∧
       (VErr.mk (.str "a") ["$1"]).propPath = []) ∨
    ((ArrayT NumberT).recognize (.arr [.num 1, .str "a", .num 2]) = true ∧
      ∃ pre k ex c post,
        (ArrayT NumberT).childrenList = pre ++ (k, ex, c) :: post ∧
        (∀ p ∈ pre, ∀ y ∈ p.2.1 (.arr [.num 1, .str "a", .num 2]),
          (p.2.2.validate y).isOk) ∧
        ∃ ys1 y ys2 tail, ex (.arr [.num 1, .str "a", .num 2]) = ys1 ++ y :: ys2 ∧
          (∀ z ∈ ys1, (c.validate z).isOk) ∧
          c.validate y = .error ⟨(VErr.mk (.str "a") ["$1"]).value, tail⟩ ∧
          (VErr.mk (.str "a") ["$1"]).propPath = k :: tail) :=
  (C1_validate_correct (ArrayT NumberT) (.arr [.num 1, .str "a", .num 2])).2
    ⟨.str "a", ["$1"]⟩ (by rfl)

/- ### C4: inference sentinels -/

theorem mem_rejectInconsistent {types : List SDType} {t : SDType}
    (h : t ∈ rejectInconsistent types) :
    t.tag ≠ TypeTag.INCONSISTENT ∧ t.tag ≠ TypeTag.UNKNOWN := by
  rw [rejectInconsistent] at h
  have hp := List.of_mem_filter h
  constructor <;> intro htag <;> rw [htag] at hp <;> simp at hp

/-- C4: inference over an empty observed-value list returns exactly
`[Unknown]`; when refinement over non-empty values leaves an empty working
set, loose mode yields `[Inconsistent]` while strict mode yields the empty
list; and the lists returned by `determineActualTypesStrict` and
`determineActualTypesLoose` never contain `Unknown` or `Inconsistent`. -/
theorem C4_inference_sentinels :
    (∀ fuel loose env types seen,
       determineActualTypes (fuel+1) loose env types seen [] = some [Unknown]) ∧
    (∀ fuel env types seen values, values ≠ [] →
       (refineAll fuel true env seen types values = some [] →
         determineActualTypes (fuel+1) true env types seen values
           = some [Inconsistent]) ∧
       (refineAll fuel false env seen types values = some [] →
         determineActualTypes (fuel+1) false env types seen values = some [])) ∧
    (∀ fuel env types values r,
       (determineActualTypesStrict fuel env types values = some r ∨
        determineActualTypesLoose fuel env types values = some r) →
       ∀ t ∈ r, t.tag ≠ TypeTag.INCONSISTENT ∧ t.tag ≠ TypeTag.UNKNOWN) := by
  refine ⟨fun _ _ _ _ _ => rfl, ?_, ?_⟩
  · intro fuel env types seen values hne
    cases values with
    | nil => exact absurd rfl hne
    | cons v vs =>
      constructor <;> intro hra <;>
        · rw [determineActualTypes]
          rw [hra]
          rfl
  · intro fuel env types values r hor t ht
    rcases hor with hs | hs <;>
      [rw [determineActualTypesStrict] at hs; rw [determineActualTypesLoose] at hs] <;>
      · rcases Option.map_eq_some'.1 hs with ⟨res, -, hrej⟩
        rw [← hrej] at ht
        exact mem_rejectInconsistent ht

/-- Witness for C4 at concrete inputs. -/
theorem C4_inference_sentinels_witness :
    determineActualTypes 1 false [] [NumberT] [] [] = some [Unknown] ∧
    determineActualTypes 3 true [] [NumberT] [] [.str "x"] = some [Inconsistent] ∧
    determineActualTypes 3 false [] [NumberT] [] [.str "x"] = some [] ∧
    (∀ t ∈ [NumberT], t.tag ≠ TypeTag.INCONSISTENT ∧ t.tag ≠ TypeTag.UNKNOWN) := by
  have h := C4_inference_sentinels
  refine ⟨h.1 0 false [] [NumberT] [], ?_, ?_, ?_⟩
  · exact (h.2.1 2 [] [NumberT] [] [.str "x"] (by simp)).1 (by rfl)
  · exact (h.2.1 2 [] [NumberT] [] [.str "x"] (by simp)).2 (by rfl)
  · exact h.2.2 10 [] [NumberT, Unknown] [.num 1] [NumberT] (Or.inl (by rfl))

/- ### C5: monotonicity of inference under value addition -/

theorem listFlatMapM_filter {α : Type} {f : α → Option (List α)} {p : α → Bool}
    {l : List α} (h : ∀ x ∈ l, f x = some (if p x then [x] else [])) :
    listFlatMapM f l = some (l.filter p) := by
  induction l with
  | nil => rfl
  | cons x xs ih =>
    rw [listFlatMapM, h x (List.mem_cons_self _ _),
        ih (fun y hy => h y (List.mem_cons_of_mem _ hy))]
    by_cases hp : p x = true
    · simp [hp, List.filter_cons]
    · simp only [Bool.not_eq_true] at hp
      simp [hp, List.filter_cons]

theorem refineOne_stepFn {fuel : Nat} {loose : Bool} {env : List SDType}
    {seen : List Value} {ts : List SDType} {v : Value}
    (htags : ∀ t ∈ ts, t.tag ≠ TypeTag.UNARY ∧ t.tag ≠ TypeTag.BINARY) :
    refineOne (fuel+1) loose env seen ts v = some (stepFn seen ts v) := by
  rw [refineOne, stepFn]
  by_cases hobj : (isObjectLike v && seen.any (fun s => Value.beq s v)) = true
  · simp [hobj]
  · simp only [Bool.not_eq_true] at hobj
    simp only [hobj, Bool.false_eq_true, if_false]
    apply listFlatMapM_filter
    intro t htmem
    obtain ⟨hu, hb⟩ := htags t htmem
    have hun : (t.tag == TypeTag.UNARY) = false := by simp [hu]
    have hbin : (t.tag == TypeTag.BINARY) = false := by simp [hb]
    rcases Bool.eq_false_or_eq_true (t.name == "sanctuary-def/Nullable") with hn | hn <;>
      rcases Bool.eq_false_or_eq_true (t.deepTest v) with hd | hd <;>
        simp [keepPred, hn, hd, hun, hbin]

theorem stepFn_subset {seen : List Value} {ts : List SDType} {v : Value}
    {t : SDType} (h : t ∈ stepFn seen ts v) : t ∈ ts := by
  rw [stepFn] at h
  split at h
  · cases h
  · exact (List.mem_filter.1 h).1

theorem mem_stepFn_keep {seen : List Value} {ts : List SDType} {v : Value}
    {t : SDType} (h : t ∈ stepFn seen ts v) : keepPred v t = true := by
  rw [stepFn] at h
  split at h
  · cases h
  · exact (List.mem_filter.1 h).2

theorem listFoldlM_refine_eq_foldl {fuel : Nat} {loose : Bool}
    {env : List SDType} {seen : List Value} :
    ∀ (values : List Value) (ts : List SDType),
      (∀ t ∈ ts, t.tag ≠ TypeTag.UNARY ∧ t.tag ≠ TypeTag.BINARY) →
      ∀ {R : List SDType},
        listFoldlM (refineOne fuel loose env seen) ts values = some R →
        R = values.foldl (stepFn seen) ts := by
  intro values
  induction values with
  | nil =>
    intro ts htags R h
    rw [listFoldlM] at h
    cases h
    rfl
  | cons v vs ih =>
    intro ts htags R h
    rw [listFoldlM] at h
    cases fuel with
    | zero => rw [refineOne] at h; cases h
    | succ f =>
      rw [refineOne_stepFn htags] at h
      rw [List.foldl_cons]
      exact ih (stepFn seen ts v)
        (fun t ht => htags t (stepFn_subset ht)) h

theorem refineAll_eq_foldl {fuel : Nat} {loose : Bool} {env : List SDType}
    {seen : List Value} {ts : List SDType} {values : List Value}
    {R : List SDType}
    (htags : ∀ t ∈ ts, t.tag ≠ TypeTag.UNARY ∧ t.tag ≠ TypeTag.BINARY)
    (h : refineAll (fuel+1) loose env seen ts values = some R) :
    R = values.foldl (stepFn seen) ts := by
  rw [refineAll] at h
  exact listFoldlM_refine_eq_foldl values ts htags h

theorem mem_foldl_stepFn_last {seen : List Value} {ts : List SDType}
    {vs : List Value} {w : Value} {t : SDType}
    (h : t ∈ (vs ++ [w]).foldl (stepFn seen) ts) : keepPred w t = true := by
  rw [List.foldl_append] at h
  exact mem_stepFn_keep h

theorem keepPred_inconsistent (w : Value) : keepPred w Inconsistent = false := rfl

theorem orL_nil (xs : List α) : orL xs [] = xs := by
  rw [orL]
  split
  · next h => exact (List.isEmpty_iff.1 h).symm
  · rfl

/-- C5 (amended): monotonicity under value addition holds for a nonempty
original observation sequence and a working set free of parameterized
(Unary/Binary) candidates: the candidate set computed after observing one
additional value is never a strict superset of the original one. -/
theorem C5_monotonic_amended
    (fuel fuel' : Nat) (loose : Bool) (env types : List SDType)
    (seen values : List Value) (v : Value) (r r' : List SDType)
    (hne : values ≠ [])
    (htags : ∀ t ∈ types, t.tag ≠ TypeTag.UNARY ∧ t.tag ≠ TypeTag.BINARY)
    (h1 : determineActualTypes (fuel+1) loose env types seen values = some r)
    (h2 : determineActualTypes (fuel'+1) loose env types seen (values ++ [v])
            = some r') :
    ¬((∀ x ∈ r, x ∈ r') ∧ ∃ y ∈ r', y ∉ r) := by
  rw [determineActualTypes] at h1 h2
  rw [if_neg (by simpa using hne)] at h1
  rw [if_neg (by simp)] at h2
  rcases hR : refineAll fuel loose env seen types values with _ | R
  · rw [hR] at h1; cases h1
  rcases hR' : refineAll fuel' loose env seen types (values ++ [v]) with _ | R'
  · rw [hR'] at h2; cases h2
  rw [hR] at h1
  rw [hR'] at h2
  cases h1; cases h2
  cases fuel with
  | zero => rw [refineAll] at hR; exact Option.noConfusion hR
  | succ f =>
    cases fuel' with
    | zero => rw [refineAll] at hR'; exact Option.noConfusion hR'
    | succ f' =>
      have hRe := refineAll_eq_foldl htags hR
      have hRe' := refineAll_eq_foldl htags hR'
      rw [List.foldl_append, List.foldl_cons, List.foldl_nil, ← hRe] at hRe'
      subst hRe'
      cases loose with
      | false =>
        rintro ⟨hsub, y, hy, hny⟩
        simp only [Bool.false_eq_true, if_false, orL_nil] at hsub hy hny
        exact hny (stepFn_subset hy)
      | true =>
        rintro ⟨hsub, y, hy, hny⟩
        simp only [reduceIte] at hsub hy hny
        by_cases hRnil : R.isEmpty = true
        · have hR0 : R = [] := List.isEmpty_iff.1 hRnil
          subst hR0
          have hstep0 : stepFn seen ([] : List SDType) v = [] := by
            rw [stepFn]; split <;> rfl
          rw [hstep0] at hy
          have horL0 : orL ([] : List SDType) [Inconsistent] = [Inconsistent] := rfl
          rw [horL0] at hy hny
          exact hny hy
        · have horL : orL R [Inconsistent] = R := by
            rw [orL, if_neg hRnil]
          rw [horL] at hsub hny
          by_cases hR2nil : (stepFn seen R v).isEmpty = true
          · have horL2 : orL (stepFn seen R v) [Inconsistent] = [Inconsistent] := by
              rw [orL, if_pos hR2nil]
            rw [horL2] at hsub hy
            cases hRv : R with
            | nil => rw [hRv] at hRnil; simp at hRnil
            | cons t0 ts0 =>
              have ht0 : t0 ∈ R := by rw [hRv]; exact List.mem_cons_self _ _
              have hmem := hsub t0 ht0
              have ht0eq : t0 = Inconsistent := List.mem_singleton.1 hmem
              obtain ⟨vs0, w0, hw0⟩ : ∃ L b, values = L ++ [b] := by
                rcases List.eq_nil_or_concat values with hnil | ⟨L, b, hcat⟩
                · exact absurd hnil hne
                · exact ⟨L, b, by rw [hcat, List.concat_eq_append]⟩
              have hkeep : keepPred w0 t0 = true := by
                have hmem0 := ht0
                rw [hRe, hw0] at hmem0
                exact mem_foldl_stepFn_last hmem0
              rw [ht0eq, keepPred_inconsistent] at hkeep
              cases hkeep
          · have horL2 : orL (stepFn seen R v) [Inconsistent] = stepFn seen R v := by
              rw [orL, if_neg hR2nil]
            rw [horL2] at hy
            exact hny (stepFn_subset hy)

theorem c5exT_deepTest (x : Value) : c5exT.deepTest x = true := by
  show ((c5exT.validate x).isOk) = true
  refine (validate_isOk_iff _ _).mpr ⟨rfl, ?_⟩
  intro e he
  rcases List.mem_singleton.1 he with h
  subst h
  intro y hy
  rfl

theorem c5exT_lift_deepTest (x : Value) :
    (fromUnaryType c5exT Unknown).deepTest x = true := by
  show (((fromUnaryType c5exT Unknown).validate x).isOk) = true
  refine (validate_isOk_iff _ _).mpr ⟨c5exT_deepTest x, ?_⟩
  intro e he
  rcases List.mem_singleton.1 he with h
  subst h
  intro y hy
  rfl

/-- The re-lift of the fixed-point candidate is itself: refine keeps it. -/
theorem c5exT_fixedPoint :
    fromUnaryType (fromUnaryType c5exT Unknown) Unknown
      = fromUnaryType c5exT Unknown := by
  show SDType.mk .UNARY "X" (fromUnaryType c5exT Unknown).deepTest
      (.cons "$1" ((fromUnaryType c5exT Unknown).extractorAt "$1") Unknown .nil)
    = SDType.mk .UNARY "X" c5exT.deepTest
      (.cons "$1" (c5exT.extractorAt "$1") Unknown .nil)
  congr 1
  funext x
  rw [c5exT_lift_deepTest x, c5exT_deepTest x]

/-- C5 counterexamples. First: over the working set `[Unknown, Number]`,
the empty sequence gives the `[Unknown]` sentinel and observing `5` gives
the strict superset `[Unknown, Number]` — additional values can expand the
candidate set, so monotonicity needs the non-empty restriction. Second:
with the Unary candidate `c5exT` (whose re-lift is a fixed point) and the
non-empty base `["s"]`, additionally observing `[5]` expands `[c5exT]` to
a strict superset containing a specialised variant as well — so even over
non-empty sequences monotonicity needs the Unary/Binary exclusion. -/
theorem C5_counterexample :
    (determineActualTypes 2 false [] [Unknown, NumberT] [] [] = some [Unknown] ∧
     determineActualTypes 3 false [] [Unknown, NumberT] [] [.num 5]
       = some [Unknown, NumberT] ∧
     (∀ x ∈ [Unknown], x ∈ [Unknown, NumberT]) ∧
     NumberT ∈ [Unknown, NumberT] ∧ NumberT ∉ [Unknown]) ∧
    (determineActualTypes 8 false [Unknown, NumberT] [c5exT] [] [Value.str "s"]
       = some [fromUnaryType c5exT Unknown] ∧
     determineActualTypes 8 false [Unknown, NumberT] [c5exT] []
         [Value.str "s", Value.arr [Value.num 5]]
       = some [fromUnaryType (fromUnaryType c5exT Unknown) Unknown,
               fromUnaryType (fromUnaryType c5exT Unknown) NumberT] ∧
     ([Value.str "s"] : List Value) ≠ [] ∧
     (∀ x ∈ [fromUnaryType c5exT Unknown],
       x ∈ [fromUnaryType (fromUnaryType c5exT Unknown) Unknown,
            fromUnaryType (fromUnaryType c5exT Unknown) NumberT]) ∧
     fromUnaryType (fromUnaryType c5exT Unknown) NumberT
       ∉ [fromUnaryType c5exT Unknown]) := by
  refine ⟨⟨rfl, rfl, ?_, by simp, ?_⟩, rfl, rfl, by simp, ?_, ?_⟩
  · intro x hx
    rcases List.mem_singleton.1 hx with h
    rw [h]
    exact List.mem_cons_self _ _
  · intro hmem
    have heq : NumberT = Unknown := List.mem_singleton.1 hmem
    have : NumberT.tag = Unknown.tag := by rw [heq]
    exact absurd this (by decide)
  · intro x hx
    rcases List.mem_singleton.1 hx with h
    rw [h]
    exact List.mem_cons.mpr (Or.inl c5exT_fixedPoint.symm)
  · intro hmem
    have heq : fromUnaryType (fromUnaryType c5exT Unknown) NumberT
        = fromUnaryType c5exT Unknown := List.mem_singleton.1 hmem
    exact absurd
      (congrArg (fun t => (SDType.childTypeAt t "$1").tag) heq) (by decide)

/-- Witness for C5's amended theorem at a concrete input: observing `5`
then additionally `"a"` over the nullary working set `[Number, String]`. -/
theorem C5_monotonic_amended_witness :
    ¬((∀ x ∈ [NumberT], x ∈ ([] : List SDType)) ∧
      ∃ y ∈ ([] : List SDType), y ∉ [NumberT]) := by
  have h := C5_monotonic_amended 2 3 false [] [NumberT, StringT] [] [.num 5]
    (.str "a") [NumberT] [] (by simp)
    (by
      intro t ht
      rcases List.mem_cons.1 ht with rfl | ht
      · exact ⟨by decide, by decide⟩
      · rcases List.mem_singleton.1 ht with rfl
        exact ⟨by decide, by decide⟩)
    (by rfl) (by rfl)
  exact h

/- ### Generic list and association-list lemmas -/

theorem listFoldlM_nil (f : β → α → Option β) (b : β) : listFoldlM f b [] = some b := rfl

theorem listFoldlM_cons (f : β → α → Option β) (b : β) (x : α) (xs : List α) :
    listFoldlM f b (x :: xs) =
      (match f b x with
       | none => none
       | some b2 => listFoldlM f b2 xs) := rfl

theorem listFlatMapM_nil (f : α → Option (List β)) : listFlatMapM f [] = some [] := rfl

theorem listFlatMapM_cons (f : α → Option (List β)) (x : α) (xs : List α) :
    listFlatMapM f (x :: xs) =
      (match f x with
       | none => none
       | some ys =>
         match listFlatMapM f xs with
         | none => none
         | some zs => some (ys ++ zs)) := rfl

theorem listFoldlM_invariant {f : β → α → Option β} {P : β → Prop}
    (hstep : ∀ b a b', P b → f b a = some b' → P b') :
    ∀ {l : List α} {b b' : β}, P b → listFoldlM f b l = some b' → P b' := by
  intro l
  induction l with
  | nil => intro b b' hP h; rw [listFoldlM_nil] at h; cases h; exact hP
  | cons a as ih =>
    intro b b' hP h
    rw [listFoldlM_cons] at h
    cases hfa : f b a with
    | none => rw [hfa] at h; cases h
    | some b2 => rw [hfa] at h; exact ih (hstep b a b2 hP hfa) h

theorem listFlatMapM_ne_nil {f : α → Option (List β)} {l : List α} {r : List β}
    (h : listFlatMapM f l = some r) (hne : r ≠ []) :
    ∃ x ∈ l, ∃ ys, f x = some ys ∧ ys ≠ [] := by
  induction l generalizing r with
  | nil => rw [listFlatMapM_nil] at h; cases h; exact absurd rfl hne
  | cons a as ih =>
    rw [listFlatMapM_cons] at h
    cases hfa : f a with
    | none => rw [hfa] at h; cases h
    | some ys =>
      rw [hfa] at h
      cases hrest : listFlatMapM f as with
      | none => rw [hrest] at h; cases h
      | some zs =>
        rw [hrest] at h; cases h
        by_cases hys : ys = []
        · subst hys
          rcases ih hrest (by simpa using hne) with ⟨x, hx, ys', hfx, hys'⟩
          exact ⟨x, List.mem_cons_of_mem _ hx, ys', hfx, hys'⟩
        · exact ⟨a, List.mem_cons_self _ _, ys, hfa, hys⟩

theorem alistLookup_update_self (m : List (String × α)) (k : String) (v : α) :
    alistLookup (alistUpdate m k v) k = some v := by
  induction m with
  | nil => simp [alistUpdate, alistLookup]
  | cons kv rest ih =>
    obtain ⟨k0, w⟩ := kv
    rw [alistUpdate]
    by_cases h : (k0 == k) = true
    · rw [if_pos h, alistLookup, if_pos (by simp)]
    · rw [if_neg h, alistLookup, if_neg h, ih]

theorem alistLookup_update_ne (m : List (String × α)) (k k' : String) (v : α)
    (h : (k == k') = false) :
    alistLookup (alistUpdate m k v) k' = alistLookup m k' := by
  induction m with
  | nil => simp [alistUpdate, alistLookup, h]
  | cons kv rest ih =>
    obtain ⟨k0, w⟩ := kv
    rw [alistUpdate]
    by_cases h0 : (k0 == k) = true
    · have hk : k0 = k := by simpa using h0
      subst hk
      rw [if_pos (by simp), alistLookup, if_neg (by simp [h]), alistLookup,
         if_neg (by simp [h])]
    · rw [if_neg h0, alistLookup, alistLookup]
      by_cases h1 : (k0 == k') = true
      · rw [if_pos h1, if_pos h1]
      · rw [if_neg h1, if_neg h1, ih]

theorem alistUpdate_update_self (m : List (String × α)) (k : String) (v1 v2 : α) :
    alistUpdate (alistUpdate m k v1) k v2 = alistUpdate m k v2 := by
  induction m with
  | nil => simp [alistUpdate]
  | cons kv rest ih =>
    obtain ⟨k0, w⟩ := kv
    rw [alistUpdate]
    by_cases h : (k0 == k) = true
    · rw [if_pos h, alistUpdate, if_pos (by simp), alistUpdate, if_pos h]
    · rw [if_neg h, alistUpdate, if_neg h, alistUpdate, if_neg h, ih]

theorem findSome?_validateErr_none {t : SDType} {vs : List Value}
    (hval : ∀ v ∈ vs, (t.validate v).isOk) :
    vs.findSome? (validateErr t) = none := by
  rw [List.findSome?_eq_none_iff]
  intro v hv
  rw [validateErr]
  cases hvx : t.validate v with
  | error e =>
    have := hval v hv
    rw [hvx] at this
    simp [Except.isOk, Except.toBool] at this
  | ok w => rfl

theorem findSome?_tcCheck_none {tcs : List TClass} {vs : List Value}
    (htc : ∀ v ∈ vs, ∀ tc ∈ tcs, tc.test v = true) :
    vs.findSome? (tcViolationCheck tcs) = none := by
  rw [List.findSome?_eq_none_iff]
  intro v hv
  rw [tcViolationCheck, List.findSome?_eq_none_iff]
  intro tc htcm
  rw [if_pos (htc v hv tc htcm)]

/-- Unfolding of `satisfactoryTypes` at a `VARIABLE` expected type whose
values all validate and satisfy the declared type classes. -/
theorem sat_unfold_var {g : Nat} {env : List SDType} {ti : TypeInfo}
    {tvm : TypeVarMap} {expType : SDType} {i : Nat} {p : List String}
    {vs : List Value}
    (hvar : expType.tag = TypeTag.VARIABLE)
    (hval : ∀ v ∈ vs, (expType.validate v).isOk)
    (htc : ∀ v ∈ vs, ∀ tc ∈ (alistLookup ti.constraints expType.name).getD [],
      tc.test v = true) :
    satisfactoryTypes (g+1) env ti tvm expType i p vs =
      (match updateTypeVarMap g env tvm expType i p vs with
       | none => none
       | some tvm2 =>
         match alistLookup tvm2 expType.name with
         | none => none
         | some entry =>
           if entry.types.isEmpty && !vs.isEmpty then
             some (.error (fun _ => .typeVarViolation i p entry.valuesByPath))
           else
             listFoldlM (satVarStep g env expType i p vs)
               (Except.ok ⟨tvm2, entry.types⟩) entry.types) := by
  rw [satisfactoryTypes, findSome?_validateErr_none hval]
  have h2 : (expType.tag == TypeTag.VARIABLE) = true := by simp [hvar]
  rw [if_pos h2, findSome?_tcCheck_none htc]

theorem alistUpdate_lookup_id {m : List (String × α)} {k : String} {v : α}
    (h : alistLookup m k = some v) : alistUpdate m k v = m := by
  induction m with
  | nil => rw [alistLookup] at h; cases h
  | cons kv rest ih =>
    obtain ⟨k0, w⟩ := kv
    rw [alistLookup] at h
    rw [alistUpdate]
    by_cases h0 : (k0 == k) = true
    · rw [if_pos h0] at h ⊢
      cases h
      have : k0 = k := by simpa using h0
      rw [this]
    · rw [if_neg h0] at h ⊢
      rw [ih h]

theorem updStep_char {fuel : Nat} {env : List SDType} {tv : SDType} {key : String}
    {m : TypeVarMap} {v : Value} {T : List SDType}
    {VBP : List (String × List Value)} {acc : List Value}
    (hlook : alistLookup m tv.name = some ⟨T, VBP⟩)
    (hacc : alistLookup VBP key = some acc) :
    updateTypeVarMapStep (fuel+1) env tv key m v =
      (match listFlatMapM (updRefineCandidate fuel env tv v) T with
       | none => none
       | some T2 => some (alistUpdate m tv.name
           ⟨T2, alistUpdate VBP key (acc ++ [v])⟩)) := by
  rw [updateTypeVarMapStep, hlook]
  simp only [hacc]

theorem upd_fold_char {fuel : Nat} {env : List SDType} {tv : SDType} {key : String} :
    ∀ (vs : List Value) (m : TypeVarMap) (T : List SDType)
      (VBP : List (String × List Value)) (acc : List Value) (res : TypeVarMap),
      alistLookup m tv.name = some ⟨T, VBP⟩ →
      alistLookup VBP key = some acc →
      listFoldlM (updateTypeVarMapStep (fuel+1) env tv key) m vs = some res →
      ∃ Tfin,
        listFoldlM (fun ts v => listFlatMapM (updRefineCandidate fuel env tv v) ts)
          T vs = some Tfin ∧
        alistLookup res tv.name = some ⟨Tfin, alistUpdate VBP key (acc ++ vs)⟩ ∧
        (∀ o, (tv.name == o) = false → alistLookup res o = alistLookup m o) := by
  intro vs
  induction vs with
  | nil =>
    intro m T VBP acc res hlook hacc h
    rw [listFoldlM_nil] at h
    cases h
    refine ⟨T, rfl, ?_, fun o _ => rfl⟩
    rw [List.append_nil, alistUpdate_lookup_id hacc, hlook]
  | cons v vs ih =>
    intro m T VBP acc res hlook hacc h
    rw [listFoldlM_cons, updStep_char hlook hacc] at h
    cases hfm : listFlatMapM (updRefineCandidate fuel env tv v) T with
    | none => rw [hfm] at h; cases h
    | some T2 =>
      rw [hfm] at h
      have hlook2 : alistLookup (alistUpdate m tv.name
          ⟨T2, alistUpdate VBP key (acc ++ [v])⟩) tv.name
          = some ⟨T2, alistUpdate VBP key (acc ++ [v])⟩ :=
        alistLookup_update_self _ _ _
      have hacc2 : alistLookup (alistUpdate VBP key (acc ++ [v])) key
          = some (acc ++ [v]) := alistLookup_update_self _ _ _
      rcases ih _ _ _ _ _ hlook2 hacc2 h with ⟨Tfin, hfold, hres, hothers⟩
      refine ⟨Tfin, ?_, ?_, ?_⟩
      · rw [listFoldlM_cons, hfm]
        exact hfold
      · rw [hres, alistUpdate_update_self]
        have : acc ++ [v] ++ vs = acc ++ v :: vs := by simp
        rw [this]
      · intro o ho
        rw [hothers o ho, alistLookup_update_ne _ _ _ _ ho]

theorem upd_char {fuel : Nat} {env : List SDType} {m : TypeVarMap} {tv : SDType}
    {i : Nat} {p : List String} {vs : List Value} {m' : TypeVarMap}
    (h : updateTypeVarMap (fuel+1+1) env m tv i p vs = some m') :
    ∃ Tfin,
      listFoldlM (fun ts v => listFlatMapM (updRefineCandidate fuel env tv v) ts)
        (updStartEntry env m tv.name).types vs = some Tfin ∧
      alistLookup m' tv.name = some ⟨Tfin,
        alistUpdate (updStartEntry env m tv.name).valuesByPath (serKey i p)
          (((alistLookup (updStartEntry env m tv.name).valuesByPath (serKey i p)).getD [])
            ++ vs)⟩ ∧
      (∀ o, (tv.name == o) = false → alistLookup m' o = alistLookup m o) := by
  rw [updateTypeVarMap] at h
  simp only [alistHas] at h
  cases hlk : alistLookup m tv.name with
  | none =>
    simp only [hlk, Option.isSome_none, Bool.false_eq_true, if_false,
      alistLookup_update_self, alistLookup, alistUpdate_update_self] at h
    have hse : updStartEntry env m tv.name = ⟨env, []⟩ := by
      rw [updStartEntry, hlk]
    have hlook1 : alistLookup (alistUpdate m tv.name
        ⟨env, alistUpdate [] (serKey i p) []⟩) tv.name
        = some ⟨env, alistUpdate [] (serKey i p) []⟩ := alistLookup_update_self _ _ _
    have hacc1 : alistLookup (alistUpdate ([] : List (String × List Value))
        (serKey i p) []) (serKey i p) = some [] := alistLookup_update_self _ _ _
    rcases upd_fold_char vs _ _ _ _ _ hlook1 hacc1 h with ⟨Tfin, hfold, hres, hothers⟩
    refine ⟨Tfin, ?_, ?_, ?_⟩
    · rw [hse]; exact hfold
    · rw [hse, hres, alistUpdate_update_self]
      simp only [alistLookup, List.nil_append]
      rfl
    · intro o ho
      rw [hothers o ho, alistLookup_update_ne _ _ _ _ ho]
  | some e =>
    simp only [hlk, Option.isSome_some, if_true] at h
    have hse : updStartEntry env m tv.name = e := by rw [updStartEntry, hlk]
    cases hvk : alistLookup e.valuesByPath (serKey i p) with
    | none =>
      simp only [hvk, Option.isSome_none, Bool.false_eq_true, if_false] at h
      have hlook1 : alistLookup (alistUpdate m tv.name
          ⟨e.types, alistUpdate e.valuesByPath (serKey i p) []⟩) tv.name
          = some ⟨e.types, alistUpdate e.valuesByPath (serKey i p) []⟩ :=
        alistLookup_update_self _ _ _
      have hacc1 : alistLookup (alistUpdate e.valuesByPath (serKey i p) [])
          (serKey i p) = some [] := alistLookup_update_self _ _ _
      rcases upd_fold_char vs _ _ _ _ _ hlook1 hacc1 h with ⟨Tfin, hfold, hres, hothers⟩
      refine ⟨Tfin, ?_, ?_, ?_⟩
      · rw [hse]; exact hfold
      · rw [hse, hres, alistUpdate_update_self, hvk]
        simp only [Option.getD_none, List.nil_append]
      · intro o ho
        rw [hothers o ho, alistLookup_update_ne _ _ _ _ ho]
    | some acc =>
      simp only [hvk, Option.isSome_some, if_true] at h
      rcases upd_fold_char vs _ _ _ _ _ hlk hvk h with ⟨Tfin, hfold, hres, hothers⟩
      refine ⟨Tfin, ?_, ?_, ?_⟩
      · rw [hse]; exact hfold
      · rw [hse, hres, hvk]
        simp only [Option.getD_some]
      · exact hothers

theorem TypeVariable_name (nm : String) : (TypeVariable nm).name = nm := rfl

/-- A refinement candidate that survives with a non-empty contribution was
accepted by `$.test`. -/
theorem updRefine_some_ne_nil_test {fuel : Nat} {env : List SDType} {tv : SDType}
    {v : Value} {t : SDType} {ys : List SDType}
    (h : updRefineCandidate (fuel+1) env tv v t = some ys) (hys : ys ≠ []) :
    sdTest fuel env t v = some true := by
  rw [updRefineCandidate] at h
  cases hsd : sdTest fuel env t v with
  | none => rw [hsd] at h; cases h
  | some b =>
    rw [hsd] at h
    cases b with
    | false =>
      simp only [Bool.not_false, if_true] at h
      cases h
      exact absurd rfl hys
    | true => rfl

/-- Case digest of `satisfactoryTypes` at a `VARIABLE` type. -/
theorem sat_var_cases {g : Nat} {env : List SDType} {ti : TypeInfo}
    {tvm : TypeVarMap} {expType : SDType} {i : Nat} {p : List String}
    {vs : List Value} {res : Except (Unit → SDErr) SatRes}
    (hvar : expType.tag = TypeTag.VARIABLE)
    (hval : ∀ v ∈ vs, ((expType.validate v).isOk) = true)
    (htc : ∀ v ∈ vs, ∀ tc ∈ (alistLookup ti.constraints expType.name).getD [],
      tc.test v = true)
    (hsat : satisfactoryTypes (g+1) env ti tvm expType i p vs = some res) :
    ∃ tvm2 entry, updateTypeVarMap g env tvm expType i p vs = some tvm2 ∧
      alistLookup tvm2 expType.name = some entry ∧
      ((entry.types.isEmpty && !vs.isEmpty) = true ∧
          res = .error (fun _ => .typeVarViolation i p entry.valuesByPath)
       ∨ (entry.types.isEmpty && !vs.isEmpty) = false ∧
          listFoldlM (satVarStep g env expType i p vs)
            (Except.ok ⟨tvm2, entry.types⟩) entry.types = some res) := by
  rw [sat_unfold_var hvar hval htc] at hsat
  split at hsat
  · cases hsat
  · next tvm2 heq =>
    split at hsat
    · cases hsat
    · next entry heq2 =>
      refine ⟨tvm2, entry, heq, heq2, ?_⟩
      split at hsat
      · next hcond =>
        cases hsat
        exact Or.inl ⟨hcond, rfl⟩
      · next hcond =>
        exact Or.inr ⟨by simpa using hcond, hsat⟩

/-- `updateTypeVarMap` over the empty environment from the empty map records
the value and leaves an empty candidate list. -/
theorem upd_empty_env (fuel : Nat) (nm : String) (i : Nat) (p : List String)
    (x : Value) :
    updateTypeVarMap (fuel+2) [] [] (TypeVariable nm) i p [x] =
      some [(nm, ⟨[], [(serKey i p, [x])]⟩)] := by
  rw [updateTypeVarMap]
  simp only [TypeVariable_name, alistHas, alistLookup, Option.isSome_none,
    Bool.false_eq_true, if_false, alistUpdate, beq_self_eq_true, if_true,
    Option.isSome_some]
  rw [listFoldlM_cons, updateTypeVarMapStep]
  simp only [TypeVariable_name, alistLookup, beq_self_eq_true, if_true,
    alistUpdate, listFlatMapM_nil, List.nil_append]
  rw [listFoldlM_nil]

/-- C10: membership testing against a bare type variable succeeds only when
some type of the environment accepts the value; over the empty environment
it always returns `false`; yet the variable's own recognizer accepts
everything. -/
theorem C10_test_typevar (name : String) :
    (∀ fuel env x, sdTest fuel env (TypeVariable name) x = some true →
        ∃ T ∈ env, ∃ g, sdTest g env T x = some true) ∧
    (∀ fuel x, sdTest (fuel+4) [] (TypeVariable name) x = some false) ∧
    (∀ x, (TypeVariable name).recognize x = true) := by
  refine ⟨?_, ?_, fun x => rfl⟩
  · intro fuel env x h
    cases fuel with
    | zero => exact Option.noConfusion h
    | succ n =>
      rw [sdTest] at h
      cases hsat : satisfactoryTypes n env ⟨"name", [], [TypeVariable name]⟩ []
          (TypeVariable name) 0 [] [x] with
      | none => rw [hsat] at h; cases h
      | some r =>
        rw [hsat] at h
        cases r with
        | error e => cases h
        | ok r =>
          cases n with
          | zero => exact Option.noConfusion hsat
          | succ g =>
            rcases sat_var_cases
                (show (TypeVariable name).tag = TypeTag.VARIABLE from rfl)
                (show ∀ v ∈ [x], (((TypeVariable name).validate v).isOk) = true
                  from fun v _ => rfl)
                (show ∀ v ∈ [x], ∀ tc ∈ (alistLookup
                      (⟨"name", [], [TypeVariable name]⟩ : TypeInfo).constraints
                      (TypeVariable name).name).getD [], tc.test v = true
                  from fun v _ tc htcm => absurd htcm (List.not_mem_nil tc))
                hsat with
              ⟨tvm2, entry, hupd, hlk, hcase⟩
            rcases hcase with ⟨_, hres⟩ | ⟨hcond, _⟩
            · cases hres
            · cases g with
              | zero => exact Option.noConfusion hupd
              | succ g1 =>
                cases g1 with
                | zero => exact Option.noConfusion hupd
                | succ g2 =>
                  rcases upd_char hupd with ⟨Tfin, hfold, hlook, -⟩
                  have hentry : entry = ⟨Tfin,
                      alistUpdate (updStartEntry env []
                          (TypeVariable name).name).valuesByPath (serKey 0 [])
                        (((alistLookup (updStartEntry env []
                            (TypeVariable name).name).valuesByPath
                          (serKey 0 [])).getD []) ++ [x])⟩ :=
                    Option.some.inj (hlk.symm.trans hlook)
                  have hTne : Tfin ≠ [] := by
                    intro hnil
                    rw [hentry, hnil] at hcond
                    simp [List.isEmpty] at hcond
                  have hse : (updStartEntry env []
                      (TypeVariable name).name).types = env := rfl
                  rw [hse, listFoldlM_cons] at hfold
                  cases hfm : listFlatMapM
                      (updRefineCandidate g2 env (TypeVariable name) x) env with
                  | none => rw [hfm] at hfold; cases hfold
                  | some T1 =>
                    rw [hfm] at hfold
                    cases hfold
                    rcases listFlatMapM_ne_nil hfm hTne with
                      ⟨T, hTm, ys, hfT, hysne⟩
                    cases g2 with
                    | zero => exact Option.noConfusion hfT
                    | succ g3 =>
                      exact ⟨T, hTm, g3, updRefine_some_ne_nil_test hfT hysne⟩
  · intro fuel x
    rw [sdTest]
    rw [sat_unfold_var
      (show (TypeVariable name).tag = TypeTag.VARIABLE from rfl)
      (show ∀ v ∈ [x], (((TypeVariable name).validate v).isOk) = true
        from fun v _ => rfl)
      (show ∀ v ∈ [x], ∀ tc ∈ (alistLookup
            (⟨"name", [], [TypeVariable name]⟩ : TypeInfo).constraints
            (TypeVariable name).name).getD [], tc.test v = true
        from fun v _ tc htcm => absurd htcm (List.not_mem_nil tc))]
    rw [upd_empty_env]
    simp only [TypeVariable_name, alistLookup, beq_self_eq_true, if_true]
    rfl

theorem C10_test_typevar_witness :
    (∃ T ∈ [NumberT], ∃ g, sdTest g [NumberT] T (Value.num 5) = some true) ∧
    sdTest 4 [] (TypeVariable "a") (Value.num 5) = some false ∧
    (TypeVariable "a").recognize (Value.num 5) = true :=
  ⟨(C10_test_typevar "a").1 10 [NumberT] (Value.num 5) (by rfl),
   (C10_test_typevar "a").2.1 0 (Value.num 5),
   (C10_test_typevar "a").2.2 (Value.num 5)⟩

theorem satVarInnerStep_noTVV {fuel : Nat} {env : List SDType} {c1 : SDType}
    {i : Nat} {p : List String} {k : String}
    {acc : Except (Unit → SDErr) SatRes} {v : Value}
    {r' : Except (Unit → SDErr) SatRes}
    (h : satVarInnerStep fuel env c1 i p k acc v = some r') (hacc : NoTVV acc) :
    NoTVV r' := by
  cases fuel with
  | zero => cases h
  | succ f =>
    cases acc with
    | error err => rw [satVarInnerStep] at h; cases h; exact hacc
    | ok r2 =>
      rw [satVarInnerStep] at h
      by_cases hc : (c1.tag == TypeTag.VARIABLE) = true
      · rw [if_pos hc] at h; cases h; intro e he; cases he
      · rw [if_neg hc] at h
        cases hsd : sdTest f env c1 v with
        | none => rw [hsd] at h; cases h
        | some b =>
          rw [hsd] at h
          cases b with
          | true => cases h; intro e he; cases he
          | false =>
            cases h
            intro e he u
            cases he
            rfl

theorem satVarStep_noTVV {fuel : Nat} {env : List SDType} {expT : SDType}
    {i : Nat} {p : List String} {vals : List Value}
    {acc : Except (Unit → SDErr) SatRes} {t : SDType}
    {r' : Except (Unit → SDErr) SatRes}
    (h : satVarStep fuel env expT i p vals acc t = some r') (hacc : NoTVV acc) :
    NoTVV r' := by
  cases fuel with
  | zero => cases h
  | succ f =>
    cases acc with
    | error err =>
      rw [satVarStep] at h
      by_cases hk : (expT.keys.isEmpty || t.keys.isEmpty) = true
      · rw [if_pos hk] at h; cases h; exact hacc
      · rw [if_neg hk] at h; cases h; exact hacc
    | ok r =>
      rw [satVarStep] at h
      by_cases hk : (expT.keys.isEmpty || t.keys.isEmpty) = true
      · rw [if_pos hk] at h; cases h; exact hacc
      · rw [if_neg hk] at h
        exact listFoldlM_invariant
          (fun b a b2 hb hf => satVarInnerStep_noTVV hf hb)
          (by intro e he; cases he) h

/-- C3: at a type-variable position whose refined candidate list is empty
though at least one value was observed, the solver returns the deferred
type-variable violation referencing the accumulated valuesByPath; if the
candidate list is non-empty or no value was observed, no type-variable
violation is produced. -/
theorem C3_typevar_violation
    (g : Nat) (env : List SDType) (ti : TypeInfo) (tvm : TypeVarMap)
    (expType : SDType) (i : Nat) (p : List String) (vs : List Value)
    (tvm2 : TypeVarMap) (entry : TVEntry) (res : Except (Unit → SDErr) SatRes)
    (hvar : expType.tag = TypeTag.VARIABLE)
    (hval : ∀ v ∈ vs, ((expType.validate v).isOk) = true)
    (htc : ∀ v ∈ vs, ∀ tc ∈ (alistLookup ti.constraints expType.name).getD [],
      tc.test v = true)
    (hupd : updateTypeVarMap g env tvm expType i p vs = some tvm2)
    (hlk : alistLookup tvm2 expType.name = some entry)
    (hsat : satisfactoryTypes (g+1) env ti tvm expType i p vs = some res) :
    (entry.types = [] → vs ≠ [] →
      res = .error (fun _ => .typeVarViolation i p entry.valuesByPath)) ∧
    (entry.types ≠ [] ∨ vs = [] → NoTVV res) := by
  rcases sat_var_cases hvar hval htc hsat with ⟨tvm2', entry', hupd', hlk', hcase⟩
  have htv : tvm2' = tvm2 := Option.some.inj (hupd'.symm.trans hupd)
  subst htv
  have hee : entry' = entry := Option.some.inj (hlk'.symm.trans hlk)
  subst hee
  constructor
  · intro hte hvs
    rcases hcase with ⟨_, hres⟩ | ⟨hcond, _⟩
    · exact hres
    · rw [hte] at hcond
      simp at hcond
      exact absurd hcond hvs
  · intro hor
    rcases hcase with ⟨hcond, _⟩ | ⟨_, hfold⟩
    · have h12 := hcond
      simp only [Bool.and_eq_true, Bool.not_eq_true', List.isEmpty_iff,
        List.isEmpty_eq_false] at h12
      rcases hor with hne | hnil
      · exact absurd h12.1 hne
      · exact absurd hnil h12.2
    · exact listFoldlM_invariant (fun b a b2 hb hf => satVarStep_noTVV hf hb)
        (by intro e he; cases he) hfold

theorem C3_typevar_violation_witness :
    (([] : List SDType) = [] → ([Value.num 5] : List Value) ≠ [] →
      (Except.error (fun _ => SDErr.typeVarViolation 0 [] [("[0]", [Value.num 5])])
        : Except (Unit → SDErr) SatRes) =
        .error (fun _ => .typeVarViolation 0 [] [("[0]", [Value.num 5])])) ∧
    (([] : List SDType) ≠ [] ∨ ([Value.num 5] : List Value) = [] →
      NoTVV (.error (fun _ =>
        SDErr.typeVarViolation 0 [] [("[0]", [Value.num 5])]))) :=
  C3_typevar_violation 10 [] ⟨"f", [], []⟩ [] (TypeVariable "a") 0 [] [Value.num 5]
    [("a", ⟨[], [("[0]", [Value.num 5])]⟩)] ⟨[], [("[0]", [Value.num 5])]⟩
    (.error (fun _ => .typeVarViolation 0 [] [("[0]", [Value.num 5])]))
    rfl (fun v _ => rfl) (fun v _ tc h => absurd h (List.not_mem_nil tc))
    rfl rfl rfl

/-- C2 (amended): `updateTypeVarMap` seeds a fresh entry with a snapshot of
`env`, refines the candidate list value by value through
`updRefineCandidate`, and accumulates the raw values under the serialized
(index, path) key; a candidate rejected by `$.test` is dropped, and — when
the variable has no child slots — a surviving Unary candidate with an
Unknown child and a non-empty extraction is replaced by the re-lifted
results of strict inference on the extracted children, while a surviving
Binary candidate is specialised to the cross product of its two sides,
each side being strict inference on that child's extraction when the child
is Unknown with a non-empty extraction and the existing child otherwise. -/
theorem C2_update_typevarmap (fuel : Nat) (env : List SDType) (m : TypeVarMap)
    (tv : SDType) (i : Nat) (p : List String) (vs : List Value)
    (m' : TypeVarMap) (t : SDType) (v : Value) :
    (alistLookup m tv.name = none → updStartEntry env m tv.name = ⟨env, []⟩) ∧
    (updateTypeVarMap (fuel+1+1) env m tv i p vs = some m' →
      ∃ Tfin,
        listFoldlM (fun ts w => listFlatMapM (updRefineCandidate fuel env tv w) ts)
          (updStartEntry env m tv.name).types vs = some Tfin ∧
        alistLookup m' tv.name = some ⟨Tfin,
          alistUpdate (updStartEntry env m tv.name).valuesByPath (serKey i p)
            (((alistLookup (updStartEntry env m tv.name).valuesByPath
                (serKey i p)).getD []) ++ vs)⟩) ∧
    (sdTest fuel env t v = some false →
      updRefineCandidate (fuel+1) env tv v t = some []) ∧
    (tv.keys = [] → t.tag = TypeTag.UNARY →
      (t.childTypeAt "$1").tag = TypeTag.UNKNOWN →
      t.extractorAt "$1" v ≠ [] →
      sdTest fuel env t v = some true →
      updRefineCandidate (fuel+1) env tv v t =
        (determineActualTypesStrict fuel env env (t.extractorAt "$1" v)).map
          (fun das => das.map (fromUnaryType t))) ∧
    (tv.keys = [] → t.tag = TypeTag.BINARY →
      sdTest fuel env t v = some true →
      updRefineCandidate (fuel+1) env tv v t =
        ((if ((t.childTypeAt "$1").tag == TypeTag.UNKNOWN
              && !(t.extractorAt "$1" v).isEmpty) = true
          then determineActualTypesStrict fuel env env (t.extractorAt "$1" v)
          else some [t.childTypeAt "$1"]).bind (fun s1 =>
            (if ((t.childTypeAt "$2").tag == TypeTag.UNKNOWN
                 && !(t.extractorAt "$2" v).isEmpty) = true
             then determineActualTypesStrict fuel env env (t.extractorAt "$2" v)
             else some [t.childTypeAt "$2"]).map (fun s2 => xprod t s1 s2)))) := by
  refine ⟨?_, ?_, ?_, ?_, ?_⟩
  · intro h
    rw [updStartEntry, h]
  · intro h
    rcases upd_char h with ⟨Tfin, hfold, hlook, -⟩
    exact ⟨Tfin, hfold, hlook⟩
  · intro hsd
    rw [updRefineCandidate, hsd]
    rfl
  · intro hk h2 h3 h4 h5
    rw [updRefineCandidate, h5]
    simp only [Bool.not_true, Bool.false_eq_true, if_false, hk]
    rw [if_neg (by simp)]
    have hu : (t.tag == TypeTag.UNARY) = true := by simp [h2]
    rw [if_pos hu]
    have hne : (t.extractorAt "$1" v).isEmpty = false := by
      cases hx : t.extractorAt "$1" v with
      | nil => exact absurd hx h4
      | cons a l => rfl
    have hck : ((t.childTypeAt "$1").tag == TypeTag.UNKNOWN
        && !(t.extractorAt "$1" v).isEmpty) = true := by
      simp [h3, hne]
    rw [if_pos hck]
    cases hdas : determineActualTypesStrict fuel env env (t.extractorAt "$1" v) with
    | none => rfl
    | some das => rfl
  · intro hk h2 h5
    rw [updRefineCandidate, h5]
    simp only [Bool.not_true, Bool.false_eq_true, if_false, hk]
    rw [if_neg (by simp)]
    rw [if_neg (by simp [h2])]
    rw [if_pos (by simp [h2])]
    by_cases hc1 : ((t.childTypeAt "$1").tag == TypeTag.UNKNOWN
        && !(t.extractorAt "$1" v).isEmpty) = true
    · rw [if_pos hc1]
      cases hdas1 : determineActualTypesStrict fuel env env
          (t.extractorAt "$1" v) with
      | none => rfl
      | some s1 =>
        by_cases hc2 : ((t.childTypeAt "$2").tag == TypeTag.UNKNOWN
            && !(t.extractorAt "$2" v).isEmpty) = true
        · rw [if_pos hc2]
          cases hdas2 : determineActualTypesStrict fuel env env
              (t.extractorAt "$2" v) with
          | none => rfl
          | some s2 => rfl
        · rw [if_neg hc2]
          rfl
    · rw [if_neg hc1]
      by_cases hc2 : ((t.childTypeAt "$2").tag == TypeTag.UNKNOWN
          && !(t.extractorAt "$2" v).isEmpty) = true
      · rw [if_pos hc2]
        cases hdas2 : determineActualTypesStrict fuel env env
            (t.extractorAt "$2" v) with
        | none => rfl
        | some s2 => rfl
      · rw [if_neg hc2]
        rfl

/-- C2 counterexample: for a unary type variable (which has a child slot),
a surviving Unary candidate with Unknown child and non-empty extraction is
kept unchanged, not replaced by the re-lifted strict inference the claim
describes. -/
theorem C2_counterexample :
    (updRefineCandidate 10 [NumberT, ArrayT Unknown]
        (UnaryTypeVariable "a" (TypeVariable "b")) (Value.arr [Value.num 1])
        (ArrayT Unknown)).map (fun ts => ts.map SDType.encode) =
      some ["(UNARY Array [$1 (UNKNOWN )])"] ∧
    ((determineActualTypesStrict 9 [NumberT, ArrayT Unknown]
        [NumberT, ArrayT Unknown]
        ((ArrayT Unknown).extractorAt "$1" (Value.arr [Value.num 1]))).map
      (fun das => das.map (fromUnaryType (ArrayT Unknown)))).map
        (fun ts => ts.map SDType.encode) =
      some ["(UNARY Array [$1 (NULLARY Number)])"] ∧
    sdTest 9 [NumberT, ArrayT Unknown] (ArrayT Unknown)
      (Value.arr [Value.num 1]) = some true ∧
    (ArrayT Unknown).tag = TypeTag.UNARY ∧
    ((ArrayT Unknown).childTypeAt "$1").tag = TypeTag.UNKNOWN ∧
    (ArrayT Unknown).extractorAt "$1" (Value.arr [Value.num 1]) ≠ [] ∧
    ("(UNARY Array [$1 (UNKNOWN )])" : String) ≠
      "(UNARY Array [$1 (NULLARY Number)])" :=
  ⟨rfl, rfl, rfl, rfl, rfl, fun hh => List.noConfusion hh, by decide⟩

theorem C2_update_typevarmap_witness :
    updStartEntry [NumberT] [] (TypeVariable "a").name = ⟨[NumberT], []⟩ ∧
    (∃ Tfin,
      listFoldlM (fun ts w => listFlatMapM
          (updRefineCandidate 8 [NumberT] (TypeVariable "a") w) ts)
        (updStartEntry [NumberT] [] (TypeVariable "a").name).types
        [Value.num 5] = some Tfin ∧
      alistLookup [("a", (⟨[NumberT], [("[0]", [Value.num 5])]⟩ : TVEntry))]
          (TypeVariable "a").name = some (⟨Tfin,
        alistUpdate (updStartEntry [NumberT] [] (TypeVariable "a").name).valuesByPath
          (serKey 0 [])
          (((alistLookup (updStartEntry [NumberT] []
              (TypeVariable "a").name).valuesByPath
            (serKey 0 [])).getD []) ++ [Value.num 5])⟩ : TVEntry)) ∧
    updRefineCandidate (8+1) [NumberT] (TypeVariable "a") (Value.num 5) StringT
      = some [] ∧
    updRefineCandidate (8+1) [NumberT] (TypeVariable "a")
        (Value.arr [Value.num 1]) (ArrayT Unknown) =
      (determineActualTypesStrict 8 [NumberT] [NumberT]
        ((ArrayT Unknown).extractorAt "$1" (Value.arr [Value.num 1]))).map
          (fun das => das.map (fromUnaryType (ArrayT Unknown))) ∧
    updRefineCandidate (8+1) [NumberT, StringT] (TypeVariable "a")
        (Value.arr [Value.num 1, Value.str "s"])
        (BinaryType "Pair" (fun _ => true)
          (fun x => match x with | Value.arr (a :: _) => [a] | _ => [])
          (fun x => match x with | Value.arr (_ :: b :: _) => [b] | _ => [])
          Unknown Unknown) =
      some (xprod
        (BinaryType "Pair" (fun _ => true)
          (fun x => match x with | Value.arr (a :: _) => [a] | _ => [])
          (fun x => match x with | Value.arr (_ :: b :: _) => [b] | _ => [])
          Unknown Unknown) [NumberT] [StringT]) := by
  have h1 := C2_update_typevarmap 8 [NumberT] [] (TypeVariable "a") 0 []
    [Value.num 5] [("a", ⟨[NumberT], [("[0]", [Value.num 5])]⟩)] StringT
    (Value.num 5)
  have h2 := C2_update_typevarmap 8 [NumberT] [] (TypeVariable "a") 0 []
    [Value.num 5] [("a", ⟨[NumberT], [("[0]", [Value.num 5])]⟩)]
    (ArrayT Unknown) (Value.arr [Value.num 1])
  have h3 := C2_update_typevarmap 8 [NumberT, StringT] [] (TypeVariable "a") 0 []
    [Value.num 5] [("a", ⟨[NumberT], [("[0]", [Value.num 5])]⟩)]
    (BinaryType "Pair" (fun _ => true)
      (fun x => match x with | Value.arr (a :: _) => [a] | _ => [])
      (fun x => match x with | Value.arr (_ :: b :: _) => [b] | _ => [])
      Unknown Unknown)
    (Value.arr [Value.num 1, Value.str "s"])
  exact ⟨h1.1 rfl, h1.2.1 rfl, h1.2.2.1 rfl,
    h2.2.2.2.1 rfl rfl rfl (fun hh => List.noConfusion hh) rfl,
    h3.2.2.2.2 rfl rfl rfl⟩

theorem sdTest_plain {g : Nat} {env : List SDType} {T : SDType} {v : Value}
    (hp : plainType T) :
    sdTest (g+2) env T v = some ((T.validate v).isOk) := by
  rw [sdTest, satisfactoryTypes]
  cases hv : T.validate v with
  | error e =>
    have hve : validateErr T v = some e := by rw [validateErr, hv]
    rw [List.findSome?_cons, hve]
    rfl
  | ok w =>
    have hve : validateErr T v = none := by rw [validateErr, hv]
    rw [List.findSome?_cons, hve, List.findSome?_nil]
    rw [if_neg (by simp [hp.1])]
    rw [if_neg (by simp [hp.2.1])]
    rw [if_neg (by simp [hp.2.2.1])]
    rw [if_neg (by simp [hp.2.2.2])]
    rfl

theorem updRefine_plain {g : Nat} {env : List SDType} {tv : SDType} {v : Value}
    {t : SDType} (hk : tv.keys = []) (hp : plainType t) :
    updRefineCandidate (g+3) env tv v t =
      some (if (t.validate v).isOk then [t] else []) := by
  rw [updRefineCandidate, sdTest_plain hp]
  cases hv : (t.validate v).isOk with
  | false => rfl
  | true =>
    simp only [Bool.not_true, Bool.false_eq_true, if_false, hk, List.length_nil]
    rw [if_neg (by simp)]
    rw [if_neg (by simp [hp.2.1])]
    rw [if_neg (by simp [hp.2.2.1])]
    rfl

theorem foldl_plainFilter {g : Nat} {env : List SDType} {tv : SDType}
    (hk : tv.keys = []) :
    ∀ (vs : List Value) (ts0 Tfin : List SDType), (∀ T ∈ ts0, plainType T) →
      listFoldlM (fun ts w => listFlatMapM (updRefineCandidate (g+3) env tv w) ts)
        ts0 vs = some Tfin →
      (∀ T ∈ Tfin, T ∈ ts0) ∧
      (∀ T ∈ Tfin, ∀ v ∈ vs, ((T.validate v).isOk) = true) := by
  intro vs
  induction vs with
  | nil =>
    intro ts0 Tfin hp h
    rw [listFoldlM_nil] at h
    cases h
    exact ⟨fun T hT => hT, fun T _ v hv => absurd hv (List.not_mem_nil v)⟩
  | cons v vs ih =>
    intro ts0 Tfin hp h
    rw [listFoldlM_cons] at h
    rw [listFlatMapM_filter (fun T hT => updRefine_plain hk (hp T hT))] at h
    have hp2 : ∀ T ∈ ts0.filter (fun T => (T.validate v).isOk), plainType T :=
      fun T hT => hp T (List.mem_of_mem_filter hT)
    rcases ih _ _ hp2 h with ⟨hsub, hpass⟩
    refine ⟨fun T hT => List.mem_of_mem_filter (hsub T hT), ?_⟩
    intro T hT w hw
    rcases List.mem_cons.mp hw with hwv | hwvs
    · subst hwv
      exact (List.mem_filter.mp (hsub T hT)).2
    · exact hpass T hT w hwvs

theorem alistLookup_mem {m : List (String × α)} {k : String} {a : α}
    (h : alistLookup m k = some a) : (k, a) ∈ m := by
  induction m with
  | nil => cases h
  | cons kv rest ih =>
    obtain ⟨k0, w⟩ := kv
    rw [alistLookup] at h
    by_cases h0 : (k0 == k) = true
    · rw [if_pos h0] at h
      cases h
      have : k0 = k := by simpa using h0
      subst this
      exact List.mem_cons_self _ _
    · rw [if_neg h0] at h
      exact List.mem_cons_of_mem _ (ih h)

theorem mem_alistUpdate {m : List (String × α)} {k : String} {a : α}
    {pr : String × α} (h : pr ∈ alistUpdate m k a) :
    pr = (k, a) ∨ pr ∈ m := by
  induction m with
  | nil =>
    rw [alistUpdate] at h
    rcases List.mem_singleton.mp h with h1
    exact Or.inl h1
  | cons kv rest ih =>
    obtain ⟨k0, w⟩ := kv
    rw [alistUpdate] at h
    by_cases h0 : (k0 == k) = true
    · rw [if_pos h0] at h
      rcases List.mem_cons.mp h with h1 | h2
      · exact Or.inl h1
      · exact Or.inr (List.mem_cons_of_mem _ h2)
    · rw [if_neg h0] at h
      rcases List.mem_cons.mp h with h1 | h2
      · exact Or.inr (h1 ▸ List.mem_cons_self _ _)
      · rcases ih h2 with h3 | h4
        · exact Or.inl h3
        · exact Or.inr (List.mem_cons_of_mem _ h4)

theorem sdTest_false_of_validate {g : Nat} {env : List SDType} {t : SDType}
    {v : Value} (hv : ((t.validate v).isOk) = false) :
    sdTest g env t v = none ∨ sdTest g env t v = some false := by
  cases g with
  | zero => exact Or.inl rfl
  | succ k =>
    cases k with
    | zero => exact Or.inl rfl
    | succ j =>
      rw [sdTest, satisfactoryTypes]
      cases hval : t.validate v with
      | ok w => rw [hval] at hv; exact Bool.noConfusion hv
      | error e =>
        have hve : validateErr t v = some e := by rw [validateErr, hval]
        rw [List.findSome?_cons, hve]
        exact Or.inr rfl

theorem sdTest_true_validate {g : Nat} {env : List SDType} {t : SDType}
    {v : Value} (h : sdTest g env t v = some true) :
    ((t.validate v).isOk) = true := by
  cases hv : (t.validate v).isOk with
  | true => rfl
  | false =>
    rcases @sdTest_false_of_validate g env t v hv with h0 | h0
    · rw [h0] at h
      exact Option.noConfusion h
    · rw [h0] at h
      exact Bool.noConfusion (Option.some.inj h)

theorem updRefine_filterOnly {g : Nat} {env : List SDType} {tv : SDType}
    {v : Value} {t : SDType} {ys : List SDType} (hfo : filterOnly tv t)
    (h : updRefineCandidate (g+3) env tv v t = some ys) :
    ys = [] ∨ (ys = [t] ∧ sdTest (g+2) env t v = some true) := by
  rw [updRefineCandidate] at h
  cases hsd : sdTest (g+2) env t v with
  | none => rw [hsd] at h; exact Option.noConfusion h
  | some b =>
    rw [hsd] at h
    cases b with
    | false =>
      simp only [Bool.not_false, if_true] at h
      cases h
      exact Or.inl rfl
    | true =>
      simp only [Bool.not_true, Bool.false_eq_true, if_false] at h
      by_cases hkl : tv.keys.length > 0
      · rw [if_pos hkl] at h
        by_cases hr : (t.tag == TypeTag.RECORD) = true
        · rw [if_pos hr] at h
          cases h
          exact Or.inl rfl
        · rw [if_neg hr] at h
          by_cases hlt : t.keys.length < tv.keys.length
          · rw [if_pos hlt] at h
            cases h
            exact Or.inl rfl
          · rw [if_neg hlt] at h
            split at h
            · exact Option.noConfusion h
            · cases h
              exact Or.inr ⟨rfl, rfl⟩
            · cases h
              exact Or.inl rfl
      · rcases hfo with hks | ⟨hu, hb⟩
        · exact absurd (List.length_pos.mpr hks) hkl
        · rw [if_neg hkl] at h
          by_cases hut : (t.tag == TypeTag.UNARY) = true
          · rw [if_pos hut] at h
            have hcne : ¬ (((t.childTypeAt "$1").tag == TypeTag.UNKNOWN
                && !(t.extractorAt "$1" v).isEmpty) = true) := by
              have h1 := hu (by simpa using hut)
              simp [h1]
            rw [if_neg hcne] at h
            cases h
            exact Or.inr ⟨rfl, rfl⟩
          · rw [if_neg hut] at h
            have hbt : ¬ ((t.tag == TypeTag.BINARY) = true) := by simp [hb]
            rw [if_neg hbt] at h
            cases h
            exact Or.inr ⟨rfl, rfl⟩

theorem listFlatMapM_keepOrDrop {α : Type} {f : α → Option (List α)}
    {P : α → Prop} :
    ∀ {l out : List α},
      (∀ t ∈ l, ∀ ys, f t = some ys → ys = [] ∨ (ys = [t] ∧ P t)) →
      listFlatMapM f l = some out → ∀ x ∈ out, x ∈ l ∧ P x := by
  intro l
  induction l with
  | nil =>
    intro out hstep h x hx
    rw [listFlatMapM_nil] at h
    cases h
    cases hx
  | cons t ts ih =>
    intro out hstep h x hx
    rw [listFlatMapM_cons] at h
    cases hf : f t with
    | none => rw [hf] at h; exact Option.noConfusion h
    | some ys =>
      rw [hf] at h
      cases hrest : listFlatMapM f ts with
      | none => rw [hrest] at h; exact Option.noConfusion h
      | some zs =>
        rw [hrest] at h
        cases h
        rcases List.mem_append.mp hx with hy | hz
        · rcases hstep t (List.mem_cons_self _ _) ys hf with hnil | ⟨hyst, hP⟩
          · subst hnil
            cases hy
          · subst hyst
            have h1 := List.mem_singleton.mp hy
            subst h1
            exact ⟨List.mem_cons_self _ _, hP⟩
        · rcases ih (fun u hu => hstep u (List.mem_cons_of_mem _ hu)) hrest x hz
            with ⟨hmem, hP⟩
          exact ⟨List.mem_cons_of_mem _ hmem, hP⟩

theorem foldl_keepOrDrop {g : Nat} {env : List SDType} {tv : SDType} :
    ∀ (vs : List Value) (ts0 Tfin : List SDType),
      (∀ T ∈ ts0, filterOnly tv T) →
      listFoldlM (fun ts w => listFlatMapM (updRefineCandidate (g+3) env tv w) ts)
        ts0 vs = some Tfin →
      (∀ T ∈ Tfin, T ∈ ts0) ∧
      (∀ T ∈ Tfin, ∀ v ∈ vs, ((T.validate v).isOk) = true) := by
  intro vs
  induction vs with
  | nil =>
    intro ts0 Tfin hfo h
    rw [listFoldlM_nil] at h
    cases h
    exact ⟨fun T hT => hT, fun T _ v hv => absurd hv (List.not_mem_nil v)⟩
  | cons v vs ih =>
    intro ts0 Tfin hfo h
    rw [listFoldlM_cons] at h
    cases hfm : listFlatMapM (updRefineCandidate (g+3) env tv v) ts0 with
    | none => rw [hfm] at h; exact Option.noConfusion h
    | some ts1 =>
      rw [hfm] at h
      have hts1 : ∀ x ∈ ts1, x ∈ ts0 ∧ sdTest (g+2) env x v = some true :=
        listFlatMapM_keepOrDrop
          (fun t ht ys hys => updRefine_filterOnly (hfo t ht) hys) hfm
      have hfo1 : ∀ T ∈ ts1, filterOnly tv T := fun T hT => hfo T (hts1 T hT).1
      rcases ih ts1 Tfin hfo1 h with ⟨hsub, hpass⟩
      refine ⟨fun T hT => (hts1 T (hsub T hT)).1, ?_⟩
      intro T hT w hw
      rcases List.mem_cons.mp hw with hwv | hwvs
      · subst hwv
        exact sdTest_true_validate (hts1 T (hsub T hT)).2
      · exact hpass T hT w hwvs

/-- C6 (amended): whenever every starting candidate of the variable's entry
can only be kept or dropped by the refinement pass — the variable has child
slots, or the candidate is neither Binary nor Unary-with-Unknown-child —
`updateTypeVarMap` preserves the membership invariant: every recorded value
is accepted by every (hence, when non-empty, by at least one) remaining
candidate, and an empty refined candidate list with values observed is
surfaced by the solver as the deferred type-variable violation. -/
theorem C6_invariant
    (g : Nat) (env : List SDType) (ti : TypeInfo) (m : TypeVarMap)
    (tv : SDType) (i : Nat) (p : List String) (vs : List Value)
    (m' : TypeVarMap) (entry : TVEntry) (res : Except (Unit → SDErr) SatRes)
    (hfo : ∀ T ∈ (updStartEntry env m tv.name).types, filterOnly tv T)
    (hstart : StrongInv (updStartEntry env m tv.name))
    (hupd : updateTypeVarMap (g+5) env m tv i p vs = some m')
    (hlk : alistLookup m' tv.name = some entry)
    (hvar : tv.tag = TypeTag.VARIABLE)
    (hval : ∀ v ∈ vs, ((tv.validate v).isOk) = true)
    (htc : ∀ v ∈ vs, ∀ tc ∈ (alistLookup ti.constraints tv.name).getD [],
      tc.test v = true)
    (hsat : satisfactoryTypes (g+6) env ti m tv i p vs = some res) :
    StrongInv entry ∧
    (entry.types ≠ [] → ∀ pr ∈ entry.valuesByPath, ∀ v ∈ pr.2,
      ∃ T ∈ entry.types, ((T.validate v).isOk) = true) ∧
    (entry.types = [] → vs ≠ [] →
      res = .error (fun _ => .typeVarViolation i p entry.valuesByPath)) := by
  rcases upd_char hupd with ⟨Tfin, hfold, hlook, -⟩
  have hentry : entry = ⟨Tfin,
      alistUpdate (updStartEntry env m tv.name).valuesByPath (serKey i p)
        (((alistLookup (updStartEntry env m tv.name).valuesByPath
            (serKey i p)).getD []) ++ vs)⟩ :=
    Option.some.inj (hlk.symm.trans hlook)
  rcases foldl_keepOrDrop vs _ Tfin hfo hfold with ⟨hsub, hpass⟩
  have hstrong : StrongInv entry := by
    rw [hentry]
    intro T hT pr hpr v hv
    rcases mem_alistUpdate hpr with hnew | hold
    · subst hnew
      rcases List.mem_append.mp hv with hacc | hvs
      · cases hacclk : alistLookup (updStartEntry env m tv.name).valuesByPath
            (serKey i p) with
        | none => rw [hacclk] at hacc; cases hacc
        | some a =>
          rw [hacclk] at hacc
          exact hstart T (hsub T hT) _ (alistLookup_mem hacclk) v hacc
      · exact hpass T hT v hvs
    · exact hstart T (hsub T hT) pr hold v hv
  refine ⟨hstrong, ?_, ?_⟩
  · intro hne pr hpr v hv
    rcases List.exists_mem_of_ne_nil _ hne with ⟨T0, hT0⟩
    exact ⟨T0, hT0, hstrong T0 hT0 pr hpr v hv⟩
  · intro hte hvs
    rcases sat_var_cases hvar hval htc hsat with
      ⟨tvm2', entry', hupd', hlk', hcase⟩
    have htv : tvm2' = m' := Option.some.inj (hupd'.symm.trans hupd)
    subst htv
    have hee : entry' = entry := Option.some.inj (hlk'.symm.trans hlk)
    subst hee
    rcases hcase with ⟨_, hres⟩ | ⟨hcond, _⟩
    · exact hres
    · rw [hte] at hcond
      simp at hcond
      exact absurd hcond hvs

/-- C6 counterexample: recording a value through a unary occurrence of the
variable and then a bare occurrence narrows the candidates to a type that
rejects the earlier recorded value — the membership invariant fails. -/
theorem C6_counterexample :
    updateTypeVarMap 12 [NumberT, StringT, ArrayT Unknown] []
        (UnaryTypeVariable "a" (TypeVariable "b")) 0 [] [Value.arr [Value.num 1]]
      = some [("a", (⟨[ArrayT Unknown],
          [("[0]", [Value.arr [Value.num 1]])]⟩ : TVEntry))] ∧
    updateTypeVarMap 12 [NumberT, StringT, ArrayT Unknown]
        [("a", (⟨[ArrayT Unknown],
          [("[0]", [Value.arr [Value.num 1]])]⟩ : TVEntry))]
        (TypeVariable "a") 1 [] [Value.arr [Value.str "x"]]
      = some [("a", (⟨[fromUnaryType (ArrayT Unknown) StringT],
          [("[0]", [Value.arr [Value.num 1]]),
           ("[1]", [Value.arr [Value.str "x"]])]⟩ : TVEntry))] ∧
    [fromUnaryType (ArrayT Unknown) StringT] ≠ ([] : List SDType) ∧
    (∀ T ∈ [fromUnaryType (ArrayT Unknown) StringT],
      ((T.validate (Value.arr [Value.num 1])).isOk) = false) := by
  refine ⟨rfl, rfl, fun hh => List.noConfusion hh, ?_⟩
  intro T hT
  cases hT with
  | head => rfl
  | tail _ h2 => cases h2

theorem C6_invariant_witness :
    StrongInv ⟨[NumberT], [("[0]", [Value.num 5])]⟩ ∧
    (([NumberT] : List SDType) ≠ [] →
      ∀ pr ∈ [("[0]", [Value.num 5])], ∀ v ∈ pr.2,
        ∃ T ∈ [NumberT], ((T.validate v).isOk) = true) ∧
    (([NumberT] : List SDType) = [] → ([Value.num 5] : List Value) ≠ [] →
      (Except.ok (⟨[("a", (⟨[NumberT], [("[0]", [Value.num 5])]⟩ : TVEntry))],
          [NumberT]⟩ : SatRes) : Except (Unit → SDErr) SatRes) =
        .error (fun _ => .typeVarViolation 0 []
          (⟨[NumberT], [("[0]", [Value.num 5])]⟩ : TVEntry).valuesByPath)) := by
  have h := C6_invariant 5 [NumberT, StringT] ⟨"f", [], []⟩ [] (TypeVariable "a")
    0 [] [Value.num 5]
    [("a", (⟨[NumberT], [("[0]", [Value.num 5])]⟩ : TVEntry))]
    ⟨[NumberT], [("[0]", [Value.num 5])]⟩
    (Except.ok ⟨[("a", (⟨[NumberT], [("[0]", [Value.num 5])]⟩ : TVEntry))],
      [NumberT]⟩)
    (by intro T hT
        cases hT with
        | head => exact Or.inr ⟨by decide, by decide⟩
        | tail _ h2 =>
          cases h2 with
          | head => exact Or.inr ⟨by decide, by decide⟩
          | tail _ h3 => cases h3)
    (by intro T hT pr hpr; cases hpr)
    rfl rfl rfl (fun v _ => rfl)
    (fun v _ tc htcm => absurd htcm (List.not_mem_nil tc))
    rfl
  exact h

theorem wrapFunctions_id {ts : List SDType}
    (h : ∀ T ∈ ts, T.tag ≠ TypeTag.FUNCTION) :
    ∀ vs, wrapFunctions ts vs = vs := by
  induction ts with
  | nil =>
    intro vs
    induction vs with
    | nil => rfl
    | cons v vs ih => rw [wrapFunctions, ih]
  | cons t ts ih =>
    intro vs
    cases vs with
    | nil => rfl
    | cons v vs =>
      rw [wrapFunctions]
      rw [if_neg (by simp [h t (List.mem_cons_self _ _)])]
      rw [ih (fun T hT => h T (List.mem_cons_of_mem _ hT)) vs]

/-- `satisfactoryTypes` at a plain type: a pure membership check that leaves
the type-variable map untouched. -/
theorem sat_plain {g : Nat} {env : List SDType} {ti : TypeInfo}
    {tvm : TypeVarMap} {T : SDType} {i : Nat} {p : List String} {v : Value}
    (hp : plainType T) :
    satisfactoryTypes (g+1) env ti tvm T i p [v] =
      some (match T.validate v with
            | .error e => .error (fun _ => .invalidValue i e.propPath e.value)
            | .ok _ => .ok ⟨tvm, [T]⟩) := by
  rw [satisfactoryTypes]
  cases hv : T.validate v with
  | error e =>
    have hve : validateErr T v = some e := by rw [validateErr, hv]
    rw [List.findSome?_cons, hve]
  | ok w =>
    have hve : validateErr T v = none := by rw [validateErr, hv]
    rw [List.findSome?_cons, hve, List.findSome?_nil]
    rw [if_neg (by simp [hp.1])]
    rw [if_neg (by simp [hp.2.1])]
    rw [if_neg (by simp [hp.2.2.1])]
    rw [if_neg (by simp [hp.2.2.2])]

theorem plainType_getD {ti : TypeInfo} (hp : ∀ T ∈ ti.types, plainType T)
    (i : Nat) : plainType ((ti.types[i]?).getD Unknown) := by
  cases hi : ti.types[i]? with
  | none =>
    exact ⟨fun h => TypeTag.noConfusion h, fun h => TypeTag.noConfusion h,
      fun h => TypeTag.noConfusion h, fun h => TypeTag.noConfusion h⟩
  | some T =>
    have hlt : i < ti.types.length := by
      by_contra hge
      rw [List.getElem?_eq_none (by omega)] at hi
      cases hi
    have hT : ti.types[i] = T := by
      rw [List.getElem?_eq_getElem hlt] at hi
      exact Option.some.inj hi
    exact hT ▸ hp _ (List.getElem_mem hlt)

/-- With type checking off, the loop is exactly the plain slot-filling. -/
theorem processArgs_false {fuel : Nat} {env : List SDType} {ti : TypeInfo} :
    ∀ (indexes : List Nat) (tvm : TypeVarMap) (values : List (Option Value))
      (idx : Nat) (args : List Value),
      processArgs fuel false env ti tvm values indexes idx args =
        some (.ok (tvm, (specFillPlain values indexes idx args).1,
          (specFillPlain values indexes idx args).2)) := by
  intro indexes
  induction indexes with
  | nil => intro tvm values idx args; rfl
  | cons index rest ih =>
    intro tvm values idx args
    rw [processArgs, specFillPlain]
    cases ha : args[idx]? with
    | some a =>
      simp only []
      by_cases hpl : isPlaceholder a = true
      · simp only [hpl, eq_self_iff_true, if_true, ih]
      · rw [Bool.not_eq_true] at hpl
        simp only [hpl, Bool.false_eq_true, if_false, ih]
    | none => simp only [ih]

/-- With checking on and a plain signature, passing checks make the loop
compute the plain slot-filling with the map unchanged. -/
theorem processArgs_plain_ok {g : Nat} {env : List SDType} {ti : TypeInfo}
    (hp : ∀ T ∈ ti.types, plainType T) :
    ∀ (indexes : List Nat) (tvm : TypeVarMap) (values : List (Option Value))
      (idx : Nat) (args : List Value),
      checksPass ti indexes idx args →
      processArgs (g+1) true env ti tvm values indexes idx args =
        some (.ok (tvm, (specFillPlain values indexes idx args).1,
          (specFillPlain values indexes idx args).2)) := by
  intro indexes
  induction indexes with
  | nil => intro tvm values idx args _; rfl
  | cons index rest ih =>
    intro tvm values idx args hcp
    rw [processArgs, specFillPlain]
    rw [checksPass] at hcp
    cases ha : args[idx]? with
    | some a =>
      simp only [ha] at hcp
      simp only []
      by_cases hpl : isPlaceholder a = true
      · rw [if_pos hpl] at hcp
        simp only [hpl, eq_self_iff_true, if_true, ih _ _ _ _ hcp]
      · rw [if_neg hpl] at hcp
        rw [Bool.not_eq_true] at hpl
        simp only [hpl, Bool.false_eq_true, if_false, eq_self_iff_true, if_true]
        rw [sat_plain (plainType_getD hp index)]
        cases hv : ((ti.types[index]?).getD Unknown).validate a with
        | error e =>
          rw [hv] at hcp
          simp [Except.isOk, Except.toBool] at hcp
        | ok w =>
          simp only []
          exact ih _ _ _ _ hcp.2
    | none =>
      simp only [ha] at hcp
      simp only [ih _ _ _ _ hcp]

/-- Conversely, a loop that returns a state passed all its checks. -/
theorem processArgs_plain_inv {g : Nat} {env : List SDType} {ti : TypeInfo}
    (hp : ∀ T ∈ ti.types, plainType T) :
    ∀ (indexes : List Nat) (tvm : TypeVarMap) (values : List (Option Value))
      (idx : Nat) (args : List Value)
      (x : TypeVarMap × List (Option Value) × List Nat),
      processArgs (g+1) true env ti tvm values indexes idx args = some (.ok x) →
      checksPass ti indexes idx args := by
  intro indexes
  induction indexes with
  | nil => intro tvm values idx args x _; trivial
  | cons index rest ih =>
    intro tvm values idx args x h
    rw [processArgs] at h
    rw [checksPass]
    cases ha : args[idx]? with
    | some a =>
      simp only [ha] at h
      simp only []
      by_cases hpl : isPlaceholder a = true
      · rw [if_pos hpl] at h
        rw [if_pos hpl]
        cases hrec : processArgs (g+1) true env ti tvm values rest (idx+1) args with
        | none => rw [hrec] at h; cases h
        | some r =>
          rw [hrec] at h
          cases r with
          | error e => cases h
          | ok y => exact ih _ _ _ _ y hrec
      · rw [if_neg hpl] at h
        rw [if_neg hpl]
        rw [Bool.not_eq_true] at hpl
        simp only [hpl, Bool.false_eq_true, if_false, eq_self_iff_true,
          if_true] at h ⊢
        rw [sat_plain (plainType_getD hp index)] at h
        cases hv : ((ti.types[index]?).getD Unknown).validate a with
        | error e => rw [hv] at h; simp only [] at h; cases h
        | ok w =>
          rw [hv] at h
          simp only [] at h
          refine ⟨rfl, ?_⟩
          exact ih _ _ _ _ x h
    | none =>
      simp only [ha] at h
      cases hrec : processArgs (g+1) true env ti tvm values rest (idx+1) args with
      | none => rw [hrec] at h; cases h
      | some r =>
        rw [hrec] at h
        cases r with
        | error e => cases h
        | ok y => exact ih _ _ _ _ y hrec

/-- A successful loop leaves at least the slots beyond the supplied
arguments open. -/
theorem processArgs_ok_count {fuel : Nat} {ct : Bool} {env : List SDType}
    {ti : TypeInfo} :
    ∀ (indexes : List Nat) (tvm : TypeVarMap) (values : List (Option Value))
      (idx : Nat) (args : List Value) (t2 : TypeVarMap)
      (v2 : List (Option Value)) (i2 : List Nat),
      processArgs fuel ct env ti tvm values indexes idx args =
        some (.ok (t2, v2, i2)) →
      indexes.length ≤ i2.length + (args.length - idx) := by
  intro indexes
  induction indexes with
  | nil => intro _ _ _ _ _ _ _ h; rw [processArgs] at h; cases h; simp
  | cons index rest ih =>
    intro tvm values idx args t2 v2 i2 h
    rw [processArgs] at h
    cases ha : args[idx]? with
    | some a =>
      simp only [ha] at h
      have hlt : idx < args.length := by
        by_contra hge
        rw [List.getElem?_eq_none (by omega)] at ha
        cases ha
      by_cases hpl : isPlaceholder a = true
      · rw [if_pos hpl] at h
        cases hrec : processArgs fuel ct env ti tvm values rest (idx+1) args with
        | none => rw [hrec] at h; cases h
        | some r =>
          rw [hrec] at h
          cases r with
          | error e => cases h
          | ok y =>
            obtain ⟨t3, v3, i3⟩ := y
            cases h
            have := ih _ _ _ _ _ _ _ hrec
            simp only [List.length_cons]
            omega
      · rw [if_neg hpl] at h
        by_cases hct : ct = true
        · rw [if_pos hct] at h
          cases hsat : satisfactoryTypes fuel env ti tvm
              ((ti.types[index]?).getD Unknown) index [] [a] with
          | none => rw [hsat] at h; cases h
          | some r =>
            rw [hsat] at h
            cases r with
            | error e => cases h
            | ok rr =>
              simp only [] at h
              have := ih _ _ _ _ _ _ _ h
              simp only [List.length_cons]
              omega
        · rw [if_neg hct] at h
          have := ih _ _ _ _ _ _ _ h
          simp only [List.length_cons]
          omega
    | none =>
      simp only [ha] at h
      cases hrec : processArgs fuel ct env ti tvm values rest (idx+1) args with
      | none => rw [hrec] at h; cases h
      | some r =>
        rw [hrec] at h
        cases r with
        | error e => cases h
        | ok y =>
          obtain ⟨t3, v3, i3⟩ := y
          cases h
          have := ih _ _ _ _ _ _ _ hrec
          simp only [List.length_cons]
          omega

/-- Exactly enough placeholder-free arguments close every slot. -/
theorem processArgs_exact_done {fuel : Nat} {ct : Bool} {env : List SDType}
    {ti : TypeInfo} :
    ∀ (indexes : List Nat) (tvm : TypeVarMap) (values : List (Option Value))
      (idx : Nat) (args : List Value) (t2 : TypeVarMap)
      (v2 : List (Option Value)) (i2 : List Nat),
      idx + indexes.length = args.length →
      (∀ a ∈ args, isPlaceholder a = false) →
      processArgs fuel ct env ti tvm values indexes idx args =
        some (.ok (t2, v2, i2)) →
      i2 = [] := by
  intro indexes
  induction indexes with
  | nil => intro _ _ _ _ _ _ _ _ _ h; rw [processArgs] at h; cases h; rfl
  | cons index rest ih =>
    intro tvm values idx args t2 v2 i2 hlen hnpl h
    rw [processArgs] at h
    have hlt : idx < args.length := by simp only [List.length_cons] at hlen; omega
    rw [List.getElem?_eq_getElem hlt] at h
    simp only [] at h
    have hpl : isPlaceholder args[idx] = false :=
      hnpl _ (List.getElem_mem hlt)
    rw [if_neg (by simp [hpl])] at h
    by_cases hct : ct = true
    · rw [if_pos hct] at h
      cases hsat : satisfactoryTypes fuel env ti tvm
          ((ti.types[index]?).getD Unknown) index [] [args[idx]] with
      | none => rw [hsat] at h; cases h
      | some r =>
        rw [hsat] at h
        cases r with
        | error e => cases h
        | ok rr =>
          simp only [] at h
          exact ih _ _ _ _ _ _ _
            (by simp only [List.length_cons] at hlen; omega) hnpl h
    · rw [if_neg hct] at h
      exact ih _ _ _ _ _ _ _ (by simp only [List.length_cons] at hlen; omega)
        hnpl h

/-- C8: the wrapper accepts exactly the remaining open slots' worth of
positional arguments — more raises the wrong-arity error built from the
signature's total arity, fewer yields a further wrapper, exactly enough
applies the implementation. -/
theorem C8_arity (fuel : Nat) (env : List SDType) (ti : TypeInfo)
    (tvm : TypeVarMap) (values : List (Option Value)) (indexes : List Nat)
    (impl : List Value → Value) (args : List Value) :
    (indexes.length < args.length →
      applyCurried fuel true env ti tvm values indexes impl args =
        some (.error (.invalidArgumentsLength ti.name (ti.types.length - 1)
          (ti.types.length - 1 + args.length - indexes.length)))) ∧
    (args.length < indexes.length →
      ∀ out, applyCurried fuel true env ti tvm values indexes impl args =
          some (.ok out) →
        ∃ tvm2 vals2 idxs2, out = .again tvm2 vals2 idxs2 ∧ idxs2 ≠ []) ∧
    (args.length = indexes.length →
      (∀ a ∈ args, isPlaceholder a = false) →
      ∀ out, applyCurried fuel true env ti tvm values indexes impl args =
          some (.ok out) →
        ∃ v, out = .done v) := by
  refine ⟨?_, ?_, ?_⟩
  · intro hlt
    rw [applyCurried, if_pos (by simp [hlt])]
  · intro hlt out h
    rw [applyCurried, if_neg (by simp; omega)] at h
    cases hpa : processArgs fuel true env ti tvm values indexes 0 args with
    | none => rw [hpa] at h; cases h
    | some r =>
      rw [hpa] at h
      cases r with
      | error e => cases h
      | ok x =>
        obtain ⟨t2, v2, i2⟩ := x
        have hcount := processArgs_ok_count _ _ _ _ _ _ _ _ hpa
        have hne : i2 ≠ [] := by
          intro hnil
          rw [hnil] at hcount
          simp at hcount
          omega
        simp only [] at h
        rw [if_neg (by simp [hne])] at h
        cases h
        exact ⟨t2, v2, i2, rfl, hne⟩
  · intro hlen hnpl out h
    rw [applyCurried, if_neg (by simp; omega)] at h
    cases hpa : processArgs fuel true env ti tvm values indexes 0 args with
    | none => rw [hpa] at h; cases h
    | some r =>
      rw [hpa] at h
      cases r with
      | error e => cases h
      | ok x =>
        obtain ⟨t2, v2, i2⟩ := x
        have hi2 : i2 = [] :=
          processArgs_exact_done _ _ _ _ _ _ _ _ (by omega) hnpl hpa
        subst hi2
        simp only [] at h
        simp only [List.isEmpty_nil, eq_self_iff_true, if_true] at h
        cases hsat : satisfactoryTypes fuel env ti t2
            ((ti.types[ti.types.length - 1]?).getD Unknown)
            (ti.types.length - 1) []
            [impl (wrapFunctions ti.types (finishValues v2))] with
        | none => rw [hsat] at h; cases h
        | some r2 =>
          rw [hsat] at h
          cases r2 with
          | error e => cases h
          | ok rr =>
            cases h
            exact ⟨_, rfl⟩

theorem C8_arity_witness :
    applyCurried 4 true [] ⟨"f", [], [NumberT, NumberT]⟩ [] [none] [0]
        (fun _ => Value.num 7) [Value.num 1, Value.num 2] =
      some (.error (.invalidArgumentsLength "f" 1 2)) ∧
    (∃ tvm2 vals2 idxs2,
      CurryOutcome.again [] [none] [0] = .again tvm2 vals2 idxs2 ∧ idxs2 ≠ []) ∧
    (∃ v, CurryOutcome.done (Value.num 7) = .done v) := by
  have h1 := C8_arity 4 [] ⟨"f", [], [NumberT, NumberT]⟩ [] [none] [0]
    (fun _ => Value.num 7) [Value.num 1, Value.num 2]
  have h2 := C8_arity 4 [] ⟨"f", [], [NumberT, NumberT]⟩ [] [none] [0]
    (fun _ => Value.num 7) []
  have h3 := C8_arity 4 [] ⟨"f", [], [NumberT, NumberT]⟩ [] [none] [0]
    (fun _ => Value.num 7) [Value.num 3]
  refine ⟨h1.1 (by decide), h2.2.1 (by decide) (CurryOutcome.again [] [none] [0])
    rfl, h3.2.2 rfl ?_ (CurryOutcome.done (Value.num 7)) rfl⟩
  intro a ha
  cases ha with
  | head => rfl
  | tail _ h4 => cases h4

/-- Whatever the checking mode and solver state, a successful pass of the
argument loop fills exactly the plain slots: the values and open-slot
components agree with the plain slot-filling. -/
theorem processArgs_true_fill {fuel : Nat} {ct : Bool} {env : List SDType}
    {ti : TypeInfo} :
    ∀ (indexes : List Nat) (tvm : TypeVarMap) (values : List (Option Value))
      (idx : Nat) (args : List Value) (t2 : TypeVarMap)
      (v2 : List (Option Value)) (i2 : List Nat),
      processArgs fuel ct env ti tvm values indexes idx args =
        some (.ok (t2, v2, i2)) →
      v2 = (specFillPlain values indexes idx args).1 ∧
      i2 = (specFillPlain values indexes idx args).2 := by
  intro indexes
  induction indexes with
  | nil =>
    intro tvm values idx args t2 v2 i2 h
    rw [processArgs] at h
    cases h
    exact ⟨rfl, rfl⟩
  | cons index rest ih =>
    intro tvm values idx args t2 v2 i2 h
    rw [processArgs] at h
    cases ha : args[idx]? with
    | some a =>
      simp only [ha] at h
      by_cases hpl : isPlaceholder a = true
      · rw [if_pos hpl] at h
        have hfill : specFillPlain values (index :: rest) idx args =
            ((specFillPlain values rest (idx+1) args).1,
              index :: (specFillPlain values rest (idx+1) args).2) := by
          rw [specFillPlain]
          simp only [ha]
          rw [if_pos hpl]
        cases hrec : processArgs fuel ct env ti tvm values rest (idx+1) args with
        | none => rw [hrec] at h; cases h
        | some r =>
          rw [hrec] at h
          cases r with
          | error e => cases h
          | ok y =>
            obtain ⟨t3, v3, i3⟩ := y
            cases h
            have hy := ih _ _ _ _ _ _ _ hrec
            rw [hfill]
            exact ⟨hy.1, by rw [hy.2]⟩
      · rw [if_neg hpl] at h
        have hfill : specFillPlain values (index :: rest) idx args =
            specFillPlain (values.set index (some a)) rest (idx+1) args := by
          rw [specFillPlain]
          simp only [ha]
          rw [if_neg hpl]
        rw [hfill]
        by_cases hct : ct = true
        · rw [if_pos hct] at h
          cases hsat : satisfactoryTypes fuel env ti tvm
              ((ti.types[index]?).getD Unknown) index [] [a] with
          | none => rw [hsat] at h; cases h
          | some r =>
            rw [hsat] at h
            cases r with
            | error e => cases h
            | ok rr =>
              simp only [] at h
              exact ih _ _ _ _ _ _ _ h
        · rw [if_neg hct] at h
          exact ih _ _ _ _ _ _ _ h
    | none =>
      simp only [ha] at h
      have hfill : specFillPlain values (index :: rest) idx args =
          ((specFillPlain values rest (idx+1) args).1,
            index :: (specFillPlain values rest (idx+1) args).2) := by
        rw [specFillPlain]
        simp only [ha]
      cases hrec : processArgs fuel ct env ti tvm values rest (idx+1) args with
      | none => rw [hrec] at h; cases h
      | some r =>
        rw [hrec] at h
        cases r with
        | error e => cases h
        | ok y =>
          obtain ⟨t3, v3, i3⟩ := y
          cases h
          have hy := ih _ _ _ _ _ _ _ hrec
          rw [hfill]
          exact ⟨hy.1, by rw [hy.2]⟩

/-- C9 (amended): with checking globally off, a call is exactly plain
currying; a checked call that completes on a signature without
FUNCTION-typed parameters (so no argument wrapping) returns the same result
with checking off; and a checked call that returns a further wrapper fills
exactly the slots the unchecked one fills. -/
theorem C9_checkTypes_off (env : List SDType) (ti : TypeInfo)
    (tvm : TypeVarMap) (values : List (Option Value)) (indexes : List Nat)
    (impl : List Value → Value) (args : List Value) (fuel g : Nat)
    (t2 : TypeVarMap) (v2 : List (Option Value)) (i2 : List Nat) (rv : Value) :
    (applyCurried fuel false env ti tvm values indexes impl args =
      some (.ok (specPlainCurry tvm values indexes impl args))) ∧
    ((∀ T ∈ ti.types, T.tag ≠ TypeTag.FUNCTION) →
      applyCurried (g+1) true env ti tvm values indexes impl args =
        some (.ok (.done rv)) →
      applyCurried (g+1) false env ti tvm values indexes impl args =
        some (.ok (.done rv))) ∧
    (applyCurried (g+1) true env ti tvm values indexes impl args =
        some (.ok (.again t2 v2 i2)) →
      applyCurried (g+1) false env ti tvm values indexes impl args =
        some (.ok (.again tvm v2 i2))) := by
  refine ⟨?_, ?_, ?_⟩
  · rw [applyCurried, if_neg (by simp)]
    rw [processArgs_false, specPlainCurry]
    cases hie : (specFillPlain values indexes 0 args).2.isEmpty with
    | true =>
      simp only [hie, eq_self_iff_true, if_true, Bool.false_eq_true, if_false]
    | false => simp only [hie, Bool.false_eq_true, if_false]
  · intro hnf h
    rw [applyCurried] at h ⊢
    by_cases hlt : indexes.length < args.length
    · rw [if_pos (by simp [hlt])] at h
      cases h
    · rw [if_neg (by simp [hlt])] at h
      rw [if_neg (by simp)]
      cases hpa : processArgs (g+1) true env ti tvm values indexes 0 args with
      | none => rw [hpa] at h; cases h
      | some r =>
        rw [hpa] at h
        cases r with
        | error e => cases h
        | ok x =>
          obtain ⟨u2, w2, x2⟩ := x
          have hfill := processArgs_true_fill _ _ _ _ _ _ _ _ hpa
          simp only [] at h
          cases hie : x2.isEmpty with
          | false =>
            rw [hie] at h
            simp only [Bool.false_eq_true, if_false] at h
            exact CurryOutcome.noConfusion (Except.ok.inj (Option.some.inj h))
          | true =>
            rw [hie] at h
            simp only [eq_self_iff_true, if_true] at h
            cases hsat : satisfactoryTypes (g+1) env ti u2
                ((ti.types[ti.types.length - 1]?).getD Unknown)
                (ti.types.length - 1) []
                [impl (wrapFunctions ti.types (finishValues w2))] with
            | none => rw [hsat] at h; cases h
            | some r2 =>
              rw [hsat] at h
              cases r2 with
              | error e => cases h
              | ok rr =>
                have hrv : impl (wrapFunctions ti.types (finishValues w2)) = rv :=
                  CurryOutcome.done.inj (Except.ok.inj (Option.some.inj h))
                rw [wrapFunctions_id hnf] at hrv
                rw [processArgs_false]
                simp only []
                have hie2 : (specFillPlain values indexes 0 args).2.isEmpty
                    = true := by
                  rw [← hfill.2]
                  exact hie
                rw [if_pos hie2]
                rw [← hfill.1, hrv, if_neg (by simp)]
  · intro h
    rw [applyCurried] at h ⊢
    by_cases hlt : indexes.length < args.length
    · rw [if_pos (by simp [hlt])] at h
      cases h
    · rw [if_neg (by simp [hlt])] at h
      rw [if_neg (by simp)]
      cases hpa : processArgs (g+1) true env ti tvm values indexes 0 args with
      | none => rw [hpa] at h; cases h
      | some r =>
        rw [hpa] at h
        cases r with
        | error e => cases h
        | ok x =>
          obtain ⟨u2, w2, x2⟩ := x
          have hfill := processArgs_true_fill _ _ _ _ _ _ _ _ hpa
          simp only [] at h
          cases hie : x2.isEmpty with
          | true =>
            rw [hie] at h
            simp only [eq_self_iff_true, if_true] at h
            cases hsat : satisfactoryTypes (g+1) env ti u2
                ((ti.types[ti.types.length - 1]?).getD Unknown)
                (ti.types.length - 1) []
                [impl (wrapFunctions ti.types (finishValues w2))] with
            | none => rw [hsat] at h; cases h
            | some r2 =>
              rw [hsat] at h
              cases r2 with
              | error e => cases h
              | ok rr =>
                exact CurryOutcome.noConfusion (Except.ok.inj (Option.some.inj h))
          | false =>
            rw [hie] at h
            simp only [Bool.false_eq_true, if_false] at h
            have h3 := CurryOutcome.again.inj (Except.ok.inj (Option.some.inj h))
            rw [processArgs_false]
            simp only []
            have hie2 : (specFillPlain values indexes 0 args).2.isEmpty
                = false := by
              rw [← hfill.2]
              exact hie
            rw [if_neg (by simp [hie2])]
            rw [← hfill.1, ← hfill.2, h3.2.1, h3.2.2]

/-- C9 counterexample: a FUNCTION-typed parameter is wrapped before the
implementation sees it, so the checked and unchecked versions disagree even
on an accepted argument. -/
theorem C9_counterexample :
    applyCurried 6 true [] ⟨"f", [], [FunctionType [NumberT, NumberT], AnyT]⟩ []
        [none] [0] (fun vs => vs.headD Value.undef) [Value.fn (.raw "g")] =
      some (.ok (.done (Value.fn (.wrapped (.raw "g"))))) ∧
    applyCurried 6 false [] ⟨"f", [], [FunctionType [NumberT, NumberT], AnyT]⟩ []
        [none] [0] (fun vs => vs.headD Value.undef) [Value.fn (.raw "g")] =
      some (.ok (.done (Value.fn (.raw "g")))) ∧
    Value.fn (.wrapped (.raw "g")) ≠ Value.fn (.raw "g") := by
  refine ⟨rfl, rfl, ?_⟩
  intro h
  injection h with h1
  exact absurd h1 (by decide)

theorem C9_checkTypes_off_witness :
    applyCurried 4 false [] ⟨"f", [], [NumberT, NumberT]⟩ [] [none] [0]
        (fun _ => Value.num 7) [Value.num 3] =
      some (.ok (specPlainCurry [] [none] [0]
        (fun _ => Value.num 7) [Value.num 3])) ∧
    applyCurried 4 false [] ⟨"f", [], [NumberT, NumberT]⟩ [] [none] [0]
        (fun _ => Value.num 7) [Value.num 3] =
      some (.ok (.done (Value.num 7))) ∧
    applyCurried 4 false [] ⟨"f", [], [NumberT, NumberT]⟩ [] [none] [0]
        (fun _ => Value.num 7) [] =
      some (.ok (.again [] [none] [0])) := by
  have h := C9_checkTypes_off [] ⟨"f", [], [NumberT, NumberT]⟩ [] [none] [0]
    (fun _ => Value.num 7) [Value.num 3] 4 3 [] [none] [0] (Value.num 7)
  have h2 := C9_checkTypes_off [] ⟨"f", [], [NumberT, NumberT]⟩ [] [none] [0]
    (fun _ => Value.num 7) [] 4 3 [] [none] [0] (Value.num 7)
  refine ⟨h.1, h.2.1 ?_ rfl, h2.2.2 rfl⟩
  intro T hT
  cases hT with
  | head => exact fun hh => TypeTag.noConfusion hh
  | tail _ hm =>
    cases hm with
    | head => exact fun hh => TypeTag.noConfusion hh
    | tail _ hm2 => cases hm2

/-- The plain slot-filling depends only on the arguments at positions from
`idx` on. -/
theorem specFillPlain_congr :
    ∀ (indexes : List Nat) (values : List (Option Value)) (idx : Nat)
      (args1 args2 : List Value),
      (∀ q, idx ≤ q → args1[q]? = args2[q]?) →
      specFillPlain values indexes idx args1 =
        specFillPlain values indexes idx args2 := by
  intro indexes
  induction indexes with
  | nil => intro values idx args1 args2 h; rfl
  | cons index rest ih =>
    intro values idx args1 args2 h
    rw [specFillPlain, specFillPlain, h idx (Nat.le_refl idx)]
    cases ha : args2[idx]? with
    | some a =>
      simp only []
      by_cases hpl : isPlaceholder a = true
      · rw [if_pos hpl, if_pos hpl,
          ih values (idx+1) args1 args2 (fun q hq => h q (by omega))]
      · rw [if_neg hpl, if_neg hpl,
          ih _ (idx+1) args1 args2 (fun q hq => h q (by omega))]
    | none =>
      simp only []
      rw [ih values (idx+1) args1 args2 (fun q hq => h q (by omega))]

theorem checksPass_tail {ti : TypeInfo} {index : Nat} {rest : List Nat}
    {idx : Nat} {args : List Value}
    (h : checksPass ti (index :: rest) idx args) :
    checksPass ti rest (idx+1) args := by
  rw [checksPass] at h
  cases ha : args[idx]? with
  | some a =>
    simp only [ha] at h
    by_cases hpl : isPlaceholder a = true
    · rw [if_pos hpl] at h
      exact h
    · rw [if_neg hpl] at h
      exact h.2
  | none =>
    simp only [ha] at h
    exact h

/-- Exactly enough placeholder-free arguments leave the plain filling with
no open slot. -/
theorem specFillPlain_full :
    ∀ (indexes : List Nat) (values : List (Option Value)) (idx : Nat)
      (args : List Value),
      idx + indexes.length = args.length →
      (∀ x ∈ args, isPlaceholder x = false) →
      (specFillPlain values indexes idx args).2 = [] := by
  intro indexes
  induction indexes with
  | nil => intro values idx args hlen hnpl; rfl
  | cons index rest ih =>
    intro values idx args hlen hnpl
    rw [specFillPlain]
    have hlt : idx < args.length := by
      simp only [List.length_cons] at hlen
      omega
    rw [List.getElem?_eq_getElem hlt]
    simp only []
    rw [if_neg (by simp [hnpl _ (List.getElem_mem hlt)])]
    exact ih _ (idx+1) args (by simp only [List.length_cons] at hlen; omega) hnpl

/-- Setting a slot the filling never touches commutes with the filling. -/
theorem specFillPlain_set_comm :
    ∀ (indexes : List Nat) (values : List (Option Value)) (idx : Nat)
      (args : List Value) (n : Nat) (w : Option Value),
      n ∉ indexes →
      ((specFillPlain values indexes idx args).1).set n w =
        (specFillPlain (values.set n w) indexes idx args).1 := by
  intro indexes
  induction indexes with
  | nil => intro values idx args n w hn; rfl
  | cons index rest ih =>
    intro values idx args n w hn
    have hnr : n ∉ rest := fun hmem => hn (List.mem_cons_of_mem _ hmem)
    have hni : n ≠ index := fun heq => hn (heq ▸ List.mem_cons_self _ _)
    rw [specFillPlain, specFillPlain]
    cases ha : args[idx]? with
    | some a =>
      simp only []
      by_cases hpl : isPlaceholder a = true
      · rw [if_pos hpl, if_pos hpl]
        exact ih values (idx+1) args n w hnr
      · rw [if_neg hpl, if_neg hpl]
        rw [ih (values.set index (some a)) (idx+1) args n w hnr]
        rw [List.set_comm _ _ values (Ne.symm hni)]
    | none =>
      simp only []
      exact ih values (idx+1) args n w hnr

/-- Replacing any one argument by the placeholder can only skip checks. -/
theorem checksPass_set_ph {ti : TypeInfo} {pv : Value}
    (hpv : isPlaceholder pv = true) :
    ∀ (indexes : List Nat) (idx s : Nat) (args : List Value),
      checksPass ti indexes idx args →
      checksPass ti indexes idx (args.set s pv) := by
  intro indexes
  induction indexes with
  | nil => intro idx s args h; trivial
  | cons index rest ih =>
    intro idx s args h
    have htail : checksPass ti rest (idx+1) args := checksPass_tail h
    rw [checksPass] at h ⊢
    by_cases hs : idx = s
    · subst hs
      by_cases hlt2 : idx < args.length
      · have hz : (args.set idx pv)[idx]? = some pv := by
          simp [List.getElem?_set, hlt2]
        simp only [hz]
        rw [if_pos hpv]
        exact ih (idx+1) idx args htail
      · have hz : (args.set idx pv)[idx]? = none := by
          rw [List.getElem?_eq_none (by simp [List.length_set]; omega)]
        simp only [hz]
        exact ih (idx+1) idx args htail
    · have hz : (args.set s pv)[idx]? = args[idx]? := by
        simp [List.getElem?_set, Ne.symm hs]
      rw [hz]
      cases ha : args[idx]? with
      | some a =>
        simp only [ha] at h ⊢
        by_cases hpl : isPlaceholder a = true
        · rw [if_pos hpl] at h ⊢
          exact ih (idx+1) s args htail
        · rw [if_neg hpl] at h ⊢
          exact ⟨h.1, ih (idx+1) s args htail⟩
      | none =>
        simp only [ha] at h ⊢
        exact ih (idx+1) s args htail

/-- The check recorded at one position of a passing run. -/
theorem checksPass_at {ti : TypeInfo} :
    ∀ (indexes : List Nat) (p idx s j : Nat) (args : List Value) (a : Value),
      checksPass ti indexes idx args →
      indexes[p]? = some j →
      s = idx + p →
      args[s]? = some a →
      isPlaceholder a = false →
      (((ti.types[j]?).getD Unknown).validate a).isOk = true := by
  intro indexes
  induction indexes with
  | nil =>
    intro p idx s j args a h hj hs ha hna
    rw [List.getElem?_nil] at hj
    cases hj
  | cons index rest ih =>
    intro p idx s j args a h hj hs ha hna
    cases p with
    | zero =>
      rw [List.getElem?_cons_zero] at hj
      have hji : index = j := Option.some.inj hj
      have hsi : s = idx := by omega
      rw [← hji]
      rw [hsi] at ha
      rw [checksPass] at h
      simp only [ha] at h
      rw [if_neg (by simp [hna])] at h
      exact h.1
    | succ q =>
      have htail := checksPass_tail h
      rw [List.getElem?_cons_succ] at hj
      exact ih q (idx+1) s j args a htail hj (by omega) ha hna

/-- Filling with one argument replaced by the placeholder leaves exactly
that argument's slot open, and setting that slot afterwards recovers the
direct filling. -/
theorem specFillPlain_set_ph (a pv : Value) (hpv : isPlaceholder pv = true) :
    ∀ (indexes : List Nat) (p : Nat) (values : List (Option Value))
      (idx s j : Nat) (args : List Value),
      indexes.Nodup →
      indexes[p]? = some j →
      s = idx + p →
      args[s]? = some a →
      idx + indexes.length = args.length →
      (∀ x ∈ args, isPlaceholder x = false) →
      (specFillPlain values indexes idx (args.set s pv)).2 = [j] ∧
      ((specFillPlain values indexes idx (args.set s pv)).1).set j (some a) =
        (specFillPlain values indexes idx args).1 := by
  intro indexes
  induction indexes with
  | nil =>
    intro p values idx s j args hnd hj hs ha hlen hnpl
    rw [List.getElem?_nil] at hj
    cases hj
  | cons index rest ih =>
    intro p values idx s j args hnd hj hs ha hlen hnpl
    cases p with
    | zero =>
      rw [List.getElem?_cons_zero] at hj
      have hji : index = j := Option.some.inj hj
      rw [← hji]
      have hsi : s = idx := by omega
      have hlt : idx < args.length := by
        by_contra hge
        rw [hsi, List.getElem?_eq_none (by omega)] at ha
        cases ha
      have hz : (args.set s pv)[idx]? = some pv := by
        rw [hsi]
        simp [List.getElem?_set, hlt]
      have haidx : args[idx]? = some a := by
        rw [← hsi]
        exact ha
      have hrest_congr : specFillPlain values rest (idx+1) (args.set s pv) =
          specFillPlain values rest (idx+1) args := by
        apply specFillPlain_congr
        intro q hq
        have hqs : s ≠ q := by omega
        simp [List.getElem?_set, hqs]
      have hfull : (specFillPlain values rest (idx+1) args).2 = [] :=
        specFillPlain_full rest values (idx+1) args
          (by simp only [List.length_cons] at hlen; omega) hnpl
      have hL : specFillPlain values (index :: rest) idx (args.set s pv) =
          ((specFillPlain values rest (idx+1) args).1,
            index :: (specFillPlain values rest (idx+1) args).2) := by
        rw [specFillPlain]
        simp only [hz]
        rw [if_pos hpv, hrest_congr]
      have hR : specFillPlain values (index :: rest) idx args =
          specFillPlain (values.set index (some a)) rest (idx+1) args := by
        rw [specFillPlain]
        simp only [haidx]
        rw [if_neg (by simp [hnpl a (List.getElem?_mem haidx)])]
      constructor
      · rw [hL]
        simp only []
        rw [hfull]
      · rw [hL, hR]
        simp only []
        have hnr : index ∉ rest := (List.nodup_cons.mp hnd).1
        exact specFillPlain_set_comm rest values (idx+1) args index (some a) hnr
    | succ q =>
      have hnd2 : rest.Nodup := (List.nodup_cons.mp hnd).2
      rw [List.getElem?_cons_succ] at hj
      have hlt : idx < args.length := by
        simp only [List.length_cons] at hlen
        omega
      have hsidx : s ≠ idx := by omega
      obtain ⟨a0, ha0⟩ : ∃ a0, args[idx]? = some a0 := by
        rw [List.getElem?_eq_getElem hlt]
        exact ⟨_, rfl⟩
      have hz : (args.set s pv)[idx]? = some a0 := by
        rw [← ha0]
        simp [List.getElem?_set, hsidx]
      have hnpl0 : isPlaceholder a0 = false := hnpl a0 (List.getElem?_mem ha0)
      have hL : specFillPlain values (index :: rest) idx (args.set s pv) =
          specFillPlain (values.set index (some a0)) rest (idx+1)
            (args.set s pv) := by
        rw [specFillPlain]
        simp only [hz]
        rw [if_neg (by simp [hnpl0])]
      have hR : specFillPlain values (index :: rest) idx args =
          specFillPlain (values.set index (some a0)) rest (idx+1) args := by
        rw [specFillPlain]
        simp only [ha0]
        rw [if_neg (by simp [hnpl0])]
      rw [hL, hR]
      exact ih q (values.set index (some a0)) (idx+1) s j args hnd2 hj
        (by omega) ha (by simp only [List.length_cons] at hlen; omega) hnpl

/-- C7 (amended): on a plain signature, a full application with the
argument at an arbitrary position replaced by the placeholder yields a
further wrapper with exactly that slot open, and supplying the real
argument in a second call gives exactly the direct application's outcome,
whenever the direct application is accepted. -/
theorem C7_placeholder (g : Nat) (env : List SDType) (ti : TypeInfo)
    (tvm : TypeVarMap) (values : List (Option Value)) (indexes : List Nat)
    (p j : Nat) (impl : List Value → Value) (args : List Value) (a pv : Value)
    (out : CurryOutcome)
    (hp : ∀ T ∈ ti.types, plainType T)
    (hnodup : indexes.Nodup)
    (hlen : args.length = indexes.length)
    (hnpl : ∀ x ∈ args, isPlaceholder x = false)
    (hpv : isPlaceholder pv = true)
    (hj : indexes[p]? = some j)
    (ha : args[p]? = some a)
    (hdirect : applyCurried (g+1) true env ti tvm values indexes impl args =
      some (.ok out)) :
    applyCurried (g+1) true env ti tvm values indexes impl (args.set p pv) =
      some (.ok (.again tvm
        (specFillPlain values indexes 0 (args.set p pv)).1 [j])) ∧
    applyCurried (g+1) true env ti tvm
        (specFillPlain values indexes 0 (args.set p pv)).1 [j] impl [a] =
      some (.ok out) := by
  have hnpla : isPlaceholder a = false := hnpl a (List.getElem?_mem ha)
  rw [applyCurried, if_neg (by simp; omega)] at hdirect
  cases hpa : processArgs (g+1) true env ti tvm values indexes 0 args with
  | none => rw [hpa] at hdirect; cases hdirect
  | some r =>
    rw [hpa] at hdirect
    cases r with
    | error e => cases hdirect
    | ok x =>
      obtain ⟨t2, v2, i2⟩ := x
      have hcp := processArgs_plain_inv hp _ _ _ _ _ _ hpa
      have heq := @processArgs_plain_ok g env ti hp indexes tvm values 0 args hcp
      rw [hpa] at heq
      have hx2 := Except.ok.inj (Option.some.inj heq)
      obtain ⟨ht2, hv2, hi2⟩ : t2 = tvm ∧
          v2 = (specFillPlain values indexes 0 args).1 ∧
          i2 = (specFillPlain values indexes 0 args).2 := by
        refine ⟨congrArg Prod.fst hx2, ?_, ?_⟩
        · exact congrArg Prod.fst (congrArg Prod.snd hx2)
        · exact congrArg Prod.snd (congrArg Prod.snd hx2)
      subst ht2 hv2 hi2
      have hfull : (specFillPlain values indexes 0 args).2 = [] :=
        specFillPlain_full indexes values 0 args (by omega) hnpl
      simp only [] at hdirect
      rw [hfull] at hdirect
      simp only [List.isEmpty_nil, eq_self_iff_true, if_true] at hdirect
      have hph := specFillPlain_set_ph a pv hpv indexes p values 0 p j args
        hnodup hj (by omega) ha (by omega) hnpl
      have hcp1 : checksPass ti indexes 0 (args.set p pv) :=
        checksPass_set_ph hpv indexes 0 p args hcp
      constructor
      · rw [applyCurried, if_neg (by simp [List.length_set]; omega)]
        rw [processArgs_plain_ok hp indexes t2 values 0 (args.set p pv) hcp1]
        simp only []
        rw [hph.1]
        rfl
      · rw [applyCurried, if_neg (by simp)]
        have htj := checksPass_at indexes p 0 p j args a hcp hj (by omega)
          ha hnpla
        have hcp2 : checksPass ti [j] 0 [a] := by
          rw [checksPass]
          simp only [List.getElem?_cons_zero]
          rw [if_neg (by simp [hnpla])]
          exact ⟨htj, trivial⟩
        rw [processArgs_plain_ok hp [j] t2
          (specFillPlain values indexes 0 (args.set p pv)).1 0 [a] hcp2]
        have hfill2 : specFillPlain
            (specFillPlain values indexes 0 (args.set p pv)).1 [j] 0 [a] =
            (((specFillPlain values indexes 0 (args.set p pv)).1).set j
              (some a), []) := by
          rw [specFillPlain]
          simp only [List.getElem?_cons_zero]
          rw [if_neg (by simp [hnpla])]
          rw [specFillPlain]
        rw [hfill2]
        simp only []
        rw [hph.2]
        simp only [List.isEmpty_nil, eq_self_iff_true, if_true]
        exact hdirect

/-- C7 counterexamples: invalid arguments raise different errors on the two
routes (each call checks only the arguments it consumes, in slot order);
and on a type-variable signature the direct application can be accepted
while the placeholder route is rejected — the two routes record the
variable's observed values in different orders, so the refined candidate
sets differ. -/
theorem C7_counterexample :
    applyCurried 4 true [] ⟨"f", [], [NumberT, NumberT, NumberT]⟩ []
        [none, none] [0, 1] (fun _ => Value.num 0)
        [Value.obj [("@@functional/placeholder", Value.bool true)],
         Value.str "x"] =
      some (.error (.invalidValue 1 [] (Value.str "x"))) ∧
    applyCurried 4 true [] ⟨"f", [], [NumberT, NumberT, NumberT]⟩ []
        [none, none] [0, 1] (fun _ => Value.num 0)
        [Value.str "y", Value.str "x"] =
      some (.error (.invalidValue 0 [] (Value.str "y"))) ∧
    SDErr.invalidValue 1 [] (Value.str "x") ≠
      SDErr.invalidValue 0 [] (Value.str "y") ∧
    applyCurried 12 true [NumberT, ArrayT Unknown]
        ⟨"f", [], [TypeVariable "a", TypeVariable "a", TypeVariable "a"]⟩ []
        [none, none] [0, 1] (fun _ => Value.arr [Value.arr [Value.str "x"]])
        [Value.arr [Value.arr []], Value.arr [Value.arr [Value.num 5]]] =
      some (.ok (.done (Value.arr [Value.arr [Value.str "x"]]))) ∧
    applyCurried 12 true [NumberT, ArrayT Unknown]
        ⟨"f", [], [TypeVariable "a", TypeVariable "a", TypeVariable "a"]⟩ []
        [none, none] [0, 1] (fun _ => Value.arr [Value.arr [Value.str "x"]])
        [Value.obj [("@@functional/placeholder", Value.bool true)],
         Value.arr [Value.arr [Value.num 5]]] =
      some (.ok (.again
        [("a", (⟨[fromUnaryType (ArrayT Unknown)
            (fromUnaryType (ArrayT Unknown) NumberT)],
          [("[1]", [Value.arr [Value.arr [Value.num 5]]])]⟩ : TVEntry))]
        [none, some (Value.arr [Value.arr [Value.num 5]])] [0])) ∧
    applyCurried 12 true [NumberT, ArrayT Unknown]
        ⟨"f", [], [TypeVariable "a", TypeVariable "a", TypeVariable "a"]⟩
        [("a", (⟨[fromUnaryType (ArrayT Unknown)
            (fromUnaryType (ArrayT Unknown) NumberT)],
          [("[1]", [Value.arr [Value.arr [Value.num 5]]])]⟩ : TVEntry))]
        [none, some (Value.arr [Value.arr [Value.num 5]])] [0]
        (fun _ => Value.arr [Value.arr [Value.str "x"]])
        [Value.arr [Value.arr []]] =
      some (.error (.typeVarViolation 2 []
        [("[1]", [Value.arr [Value.arr [Value.num 5]]]),
         ("[0]", [Value.arr [Value.arr []]]),
         ("[2]", [Value.arr [Value.arr [Value.str "x"]]])])) ∧
    (some (.error (.typeVarViolation 2 []
        [("[1]", [Value.arr [Value.arr [Value.num 5]]]),
         ("[0]", [Value.arr [Value.arr []]]),
         ("[2]", [Value.arr [Value.arr [Value.str "x"]]])]))
      : Option (Except SDErr CurryOutcome)) ≠
      some (.ok (.done (Value.arr [Value.arr [Value.str "x"]]))) := by
  refine ⟨rfl, rfl, ?_, rfl, rfl, rfl, ?_⟩
  · intro h
    injection h with h1 h2 h3
    exact absurd h1 (by decide)
  · intro h
    exact Except.noConfusion (Option.some.inj h)

theorem C7_placeholder_witness :
    applyCurried 4 true [] ⟨"f", [], [NumberT, StringT, NumberT]⟩ []
        [none, none] [0, 1] (fun vs => vs.headD Value.undef)
        ([Value.num 1, Value.str "s"].set 0
          (Value.obj [("@@functional/placeholder", Value.bool true)])) =
      some (.ok (.again []
        (specFillPlain [none, none] [0, 1] 0
          ([Value.num 1, Value.str "s"].set 0
            (Value.obj [("@@functional/placeholder", Value.bool true)]))).1
        [0])) ∧
    applyCurried 4 true [] ⟨"f", [], [NumberT, StringT, NumberT]⟩ []
        (specFillPlain [none, none] [0, 1] 0
          ([Value.num 1, Value.str "s"].set 0
            (Value.obj [("@@functional/placeholder", Value.bool true)]))).1
        [0] (fun vs => vs.headD Value.undef) [Value.num 1] =
      some (.ok (.done (Value.num 1))) := by
  have h := C7_placeholder 3 [] ⟨"f", [], [NumberT, StringT, NumberT]⟩ []
    [none, none] [0, 1] 0 0 (fun vs => vs.headD Value.undef)
    [Value.num 1, Value.str "s"] (Value.num 1)
    (Value.obj [("@@functional/placeholder", Value.bool true)])
    (.done (Value.num 1))
    ?_ (by decide) rfl ?_ rfl rfl rfl rfl
  · exact h
  · intro T hT
    cases hT with
    | head =>
      exact ⟨fun hh => TypeTag.noConfusion hh, fun hh => TypeTag.noConfusion hh,
        fun hh => TypeTag.noConfusion hh, fun hh => TypeTag.noConfusion hh⟩
    | tail _ h2 =>
      cases h2 with
      | head =>
        exact ⟨fun hh => TypeTag.noConfusion hh, fun hh => TypeTag.noConfusion hh,
          fun hh => TypeTag.noConfusion hh, fun hh => TypeTag.noConfusion hh⟩
      | tail _ h3 =>
        cases h3 with
        | head =>
          exact ⟨fun hh => TypeTag.noConfusion hh, fun hh => TypeTag.noConfusion hh,
            fun hh => TypeTag.noConfusion hh, fun hh => TypeTag.noConfusion hh⟩
        | tail _ h4 => cases h4
  · intro x hx
    cases hx with
    | head => rfl
    | tail _ h2 =>
      cases h2 with
      | head => rfl
      | tail _ h3 => cases h3
